import Mathlib

/-!
# m6.c — multi-threaded multiplication of two square `int` matrices

A shallow embedding of `src/m6.c`.

Conventions of the embedding

* A C `int` is a mathematical integer together with the wraparound `wrapInt32`
  applied wherever the source computes in `int` and the result can leave the
  32-bit range; a C `long` (LP64) likewise with `wrapInt64`; a `size_t` is a
  natural number below `2^64`.  Signed overflow is modelled as two's-complement
  wraparound.
* The three buffers `A`, `B` and `C` are three distinct objects (two read-only
  mappings and one writable mapping or heap block); a buffer is a map from the
  element offset to the stored `int`.
* System calls (`open`, `fstat`, `mmap`, `malloc`, `pthread_create`, ...) are
  taken to succeed; the embedding covers the size validation, the partition of
  the rows, the worker function and the assembly of these in `main`.
* `(int)floor(sqrt((double)e))` is modelled by the integer square root.  The
  conversion to `double` is exact below `2^53` and the IEEE-754 square root is
  correctly rounded, so below `2^52` the two agree; every element count that
  the subsequent check can accept is below `2^31`.
-/

namespace M6

/-! ## Machine integers -/

/-- The value of an `int` after two's-complement wraparound to 32 bits. -/
def wrapInt32 (x : Int) : Int := (x + 2 ^ 31) % 2 ^ 32 - 2 ^ 31

/-- The value of a `long` after two's-complement wraparound to 64 bits. -/
def wrapInt64 (x : Int) : Int := (x + 2 ^ 63) % 2 ^ 64 - 2 ^ 63

/-- Conversion of a signed integer to `size_t` (64 bits, unsigned). -/
def toSizeT (x : Int) : Nat := (x % 2 ^ 64).toNat

/-- Membership in the range of a signed 32-bit integer. -/
def InInt32 (x : Int) : Prop := -2 ^ 31 ≤ x ∧ x < 2 ^ 31

/-- Membership in the range of a signed 64-bit integer. -/
def InInt64 (x : Int) : Prop := -2 ^ 63 ≤ x ∧ x < 2 ^ 63

instance (x : Int) : Decidable (InInt32 x) := by unfold InInt32; infer_instance

instance (x : Int) : Decidable (InInt64 x) := by unfold InInt64; infer_instance

/-! ## Memory -/

/-- A buffer of `int`s, addressed by the element offset from its base pointer. -/
abbrev Buffer := Int → Int

/-- The three buffers the program works on: the two inputs and the output. -/
structure Memory where
  A : Buffer
  B : Buffer
  C : Buffer

/-- The fields of `thread_args_t` that differ from worker to worker; the
pointers `A`, `B`, `C` of the source always designate the buffers of `Memory`. -/
structure thread_args_t where
  dimension : Int
  start_row : Int
  end_row : Int
deriving DecidableEq, Repr

/-! ## Loops -/

/-- The loop `for (i = i0; ...; i++) body`, run for `n` iterations from `i0`. -/
def loopFrom {σ : Type} (body : Int → σ → σ) : Nat → Int → σ → σ
  | 0, _, s => s
  | n + 1, i, s => loopFrom body n (i + 1) (body i s)

/-- The loop `for (int i = lo; i < hi; i++) body`, whose body changes neither
`i` nor `hi`: it runs `hi - lo` times when `lo < hi` and not at all otherwise. -/
def forLoop {σ : Type} (lo hi : Int) (body : Int → σ → σ) (s : σ) : σ :=
  loopFrom body (hi - lo).toNat lo s

/-! ## The worker: `multiply_rows` (lines 44-67) -/

/-- The offset `r * dim + c`, computed in `int`. -/
def index (r dim c : Int) : Int := wrapInt32 (wrapInt32 (r * dim) + c)

/-- The exact value of `sum + (long)A[r * dim + k] * (long)B[k * dim + c]`,
before it is stored back into the `long` variable `sum` (line 60). -/
def acc_exact (m : Memory) (dim r c k sum : Int) : Int :=
  sum + wrapInt64 (m.A (index r dim k) * m.B (index k dim c))

/-- One iteration of the `k` loop: `sum += (long)A[...] * (long)B[...]`. -/
def sum_step (m : Memory) (dim r c : Int) (k : Int) (sum : Int) : Int :=
  wrapInt64 (acc_exact m dim r c k sum)

/-- The `k` loop of lines 57-61, started with `sum = 0`. -/
def dot_product (m : Memory) (dim r c : Int) : Int :=
  forLoop 0 dim (sum_step m dim r c) 0

/-- One iteration of the `c` loop: the `k` loop, then `C[r * dim + c] = (int)sum`. -/
def cell_step (dim r : Int) (c : Int) (m : Memory) : Memory :=
  { m with C := Function.update m.C (index r dim c) (wrapInt32 (dot_product m dim r c)) }

/-- One iteration of the `r` loop: the whole `c` loop for row `r`. -/
def row_step (dim : Int) (r : Int) (m : Memory) : Memory :=
  forLoop 0 dim (cell_step dim r) m

/-- The worker function `multiply_rows`. -/
def multiply_rows (args : thread_args_t) (m : Memory) : Memory :=
  forLoop args.start_row args.end_row (row_step args.dimension) m

/-! ## `main`: size validation (lines 145-185) -/

/-- The failure exits of `main` that the embedding covers. -/
inductive MainError where
  | Usage
  | MalformedSize
  | NotSquare (which : Nat)
  | DimensionMismatch
deriving DecidableEq, Repr

/-- The computation `(int)floor(sqrt((double)elements))`. -/
def floor_sqrt (elements : Nat) : Int := wrapInt32 (Nat.sqrt elements)

/-- Lines 159-160 and 168-169: the dimension of a file of `elements` integers,
or `none` when `(size_t)(dimension * dimension) != elements`. -/
def square_dimension (elements : Nat) : Option Int :=
  let dimension := floor_sqrt elements
  if toSizeT (wrapInt32 (dimension * dimension)) ≠ elements then none else some dimension

/-- The size validation of `main` on the byte sizes of the two input files. -/
def validate (size1 size2 : Nat) : Except MainError Int :=
  if size1 % 4 ≠ 0 ∨ size2 % 4 ≠ 0 then .error .MalformedSize
  else
    let elements1 := size1 / 4
    let elements2 := size2 / 4
    match square_dimension elements1 with
    | none => .error (.NotSquare 1)
    | some dimension1 =>
      match square_dimension elements2 with
      | none => .error (.NotSquare 2)
      | some dimension2 =>
        if dimension1 ≠ dimension2 then .error .DimensionMismatch
        else .ok dimension1

/-- Line 210: `size_t output_size = dimension * dimension * sizeof(int)`; the
first product is an `int` product, the second a `size_t` product. -/
def output_size (dimension : Int) : Nat :=
  (toSizeT (wrapInt32 (dimension * dimension)) * 4) % 2 ^ 64

/-! ## `main`: partition of the rows and the workers (lines 311-364) -/

/-- The loop of lines 317-358 in so far as it fills `targs`: `n` iterations
from thread number `i`, the next free row being `start_row`.  No value computed
here exceeds `dimension`, so the `int` additions do not overflow. -/
def fill_targs (dimension rows_per_thread remainder : Int) : Nat → Int → Int → List thread_args_t
  | 0, _, _ => []
  | n + 1, i, start_row =>
    let end_row := start_row + rows_per_thread
    let end_row := if i < remainder then end_row + 1 else end_row
    { dimension := dimension, start_row := start_row, end_row := end_row } ::
      fill_targs dimension rows_per_thread remainder n (i + 1) end_row

/-- The array `targs` as `main` fills it for `threads` workers. -/
def targs (dimension threads : Int) : List thread_args_t :=
  fill_targs dimension (Int.tdiv dimension threads) (Int.tmod dimension threads)
    threads.toNat 0 0

/-- The effect of the workers of a list of arguments, run one after the other. -/
def run_workers (sched : List thread_args_t) (m : Memory) : Memory :=
  sched.foldl (fun m args => multiply_rows args m) m

/-- What `main` has at its successful exit. -/
structure MainResult where
  dimension : Int
  output_size : Nat
  workers : List thread_args_t
  mem : Memory

/-- The run of `main` on input files of `size1` and `size2` bytes whose contents
are `m.A` and `m.B`, with `threads` workers and an output buffer that initially
holds `m.C`. -/
def main (size1 size2 : Nat) (threads : Int) (m : Memory) : Except MainError MainResult :=
  if threads ≤ 0 then .error .Usage
  else
    match validate size1 size2 with
    | .error e => .error e
    | .ok dimension =>
      let workers := targs dimension threads
      .ok { dimension := dimension, output_size := output_size dimension,
            workers := workers, mem := run_workers workers m }

/-! ## Reference quantities used in the statements -/

/-- The exact entry `(r, c)` of the product: the sum over `k` in `[0, dim)` of
`A[r * dim + k] * B[k * dim + c]`, in unbounded integers. -/
def exact_sum (A B : Buffer) (dim r c : Int) : Int :=
  ∑ k in Finset.range dim.toNat, A (r * dim + k) * B (k * dim + c)

/-- The `int` that the product holds at offset `i`: the exact entry of row
`i / dim` and column `i % dim`, narrowed to 32 bits. -/
def product_cell (A B : Buffer) (dim i : Int) : Int :=
  wrapInt32 (exact_sum A B dim (i / dim) (i % dim))

/-- The value of the variable `sum` of the `k` loop for cell `(r, c)` after `n`
iterations. -/
def running_sum (m : Memory) (dim r c : Int) (n : Nat) : Int :=
  loopFrom (sum_step m dim r c) n 0 0

/-- The first row of worker `j` when `rows_per_thread` and `remainder` are
`base` and `rem`: the first `rem` workers take `base + 1` rows each. -/
def first_row (base rem : Int) (j : Nat) : Int := j * base + min (j : Int) rem

/-- The buffer with the given cells at offsets `0, 1, ...` and `0` elsewhere. -/
def buffer_of (cells : List Int) : Buffer :=
  fun i => if 0 ≤ i then cells.getD i.toNat 0 else 0

/-- Two input matrices whose every entry is `INT_MIN`, with a zeroed output. -/
def int_min_memory : Memory :=
  { A := fun _ => -2 ^ 31, B := fun _ => -2 ^ 31, C := fun _ => 0 }

/-! ## The workers as concurrent threads

`run_workers` runs the workers one after the other.  The threads of `main` run
concurrently; the definitions below let them take turns in any order, a turn
being one iteration of the `c` loop (the `k` loop, which only reads `A` and `B`,
and the store of one cell of `C`) or the passage to the next row. -/

/-- A worker in the course of `multiply_rows`: its arguments and the current
values of the loop variables `r` and `c`. -/
structure Worker where
  args : thread_args_t
  r : Int
  c : Int
deriving DecidableEq, Repr

/-- The worker at its creation: `r = start_row`, `c = 0`. -/
def spawn (args : thread_args_t) : Worker :=
  { args := args, r := args.start_row, c := 0 }

/-- The `r` loop has ended: `r < end_row` is false. -/
def Worker.finished (w : Worker) : Prop := ¬ (w.r < w.args.end_row)

instance (w : Worker) : Decidable w.finished := by unfold Worker.finished; infer_instance

/-- One turn of a worker: inside the `r` loop, one iteration of the `c` loop
when `c < dim`, and otherwise `r++` with `c` back at 0; nothing once the `r`
loop has ended. -/
def Worker.step (w : Worker) (m : Memory) : Worker × Memory :=
  if w.r < w.args.end_row then
    if w.c < w.args.dimension then
      ({ w with c := w.c + 1 }, cell_step w.args.dimension w.r w.c m)
    else ({ w with r := w.r + 1, c := 0 }, m)
  else (w, m)

/-- The threads created by `main` and the memory they share. -/
structure Pool where
  threads : Nat
  worker : Nat → Worker
  mem : Memory

/-- The pool right after the creation of the workers of `as`. -/
def Pool.init (as : List thread_args_t) (m : Memory) : Pool :=
  { threads := as.length,
    worker := fun j => spawn (as.getD j { dimension := 0, start_row := 0, end_row := 0 }),
    mem := m }

/-- Thread `j` takes one turn. -/
def Pool.step (j : Nat) (s : Pool) : Pool :=
  if j < s.threads then
    { s with worker := Function.update s.worker j ((s.worker j).step s.mem).1,
             mem := ((s.worker j).step s.mem).2 }
  else s

/-- The pool after the turns of a schedule, a list of thread numbers. -/
def run_schedule (sched : List Nat) (s : Pool) : Pool :=
  sched.foldl (fun s j => Pool.step j s) s

/-- Every thread has finished: what `main` waits for with `pthread_join`. -/
def Pool.finished (s : Pool) : Prop := ∀ j, j < s.threads → (s.worker j).finished

instance (s : Pool) : Decidable s.finished := by unfold Pool.finished; infer_instance

/-- The number of turns a worker still has to take. -/
def Worker.remaining (w : Worker) : Nat :=
  ((w.args.end_row - w.r) * (w.args.dimension + 1) - w.c).toNat

/-- The number of turns the threads of the pool still have to take. -/
def Pool.remaining (s : Pool) : Nat :=
  ∑ j in Finset.range s.threads, (s.worker j).remaining

/-- The state of a worker is consistent with its arguments, a range within
`[0, dim]` of a matrix of dimension `dim`. -/
def Worker.Consistent (dim : Int) (w : Worker) : Prop :=
  w.args.dimension = dim ∧ 0 ≤ w.args.start_row ∧ w.args.start_row ≤ w.r ∧
    w.r ≤ w.args.end_row ∧ w.args.end_row ≤ dim ∧ 0 ≤ w.c ∧ w.c ≤ dim ∧
    (w.r = w.args.end_row → w.c = 0)

/-- Some worker of the pool has already stored cell `i`. -/
def Pool.Written (s : Pool) (dim : Int) (i : Int) : Prop :=
  ∃ j, j < s.threads ∧ (s.worker j).args.start_row * dim ≤ i ∧
    i < (s.worker j).r * dim + (s.worker j).c

/-- What holds of the pool at every moment of a run started from memory `m0`
with the workers of `as`. -/
def Pool.Inv (dim : Int) (as : List thread_args_t) (m0 : Memory) (s : Pool) : Prop :=
  s.threads = as.length ∧
  (∀ j, j < s.threads →
    (s.worker j).args = as.getD j { dimension := 0, start_row := 0, end_row := 0 } ∧
    (s.worker j).Consistent dim) ∧
  s.mem.A = m0.A ∧ s.mem.B = m0.B ∧
  ∀ i, (s.Written dim i → s.mem.C i = product_cell m0.A m0.B dim i) ∧
    (¬ s.Written dim i → s.mem.C i = m0.C i)

end M6

namespace M6

/-! ## Machine integers: basic facts -/

theorem wrapInt32_of_inInt32 {x : Int} (h : InInt32 x) : wrapInt32 x = x := by
  unfold InInt32 at h
  unfold wrapInt32
  omega

theorem wrapInt32_inInt32 (x : Int) : InInt32 (wrapInt32 x) := by
  unfold InInt32 wrapInt32
  omega

theorem wrapInt64_of_inInt64 {x : Int} (h : InInt64 x) : wrapInt64 x = x := by
  unfold InInt64 at h
  unfold wrapInt64
  omega

theorem wrapInt64_inInt64 (x : Int) : InInt64 (wrapInt64 x) := by
  unfold InInt64 wrapInt64
  omega

theorem wrapInt32_wrapInt64 (x : Int) : wrapInt32 (wrapInt64 x) = wrapInt32 x := by
  unfold wrapInt32 wrapInt64
  omega

theorem wrapInt64_modEq (x : Int) : wrapInt64 x ≡ x [ZMOD 2 ^ 64] := by
  unfold wrapInt64 Int.ModEq
  omega

theorem wrapInt32_modEq (x : Int) : wrapInt32 x ≡ x [ZMOD 2 ^ 32] := by
  unfold wrapInt32 Int.ModEq
  omega

theorem wrapInt32_congr {x y : Int} (h : x ≡ y [ZMOD 2 ^ 32]) : wrapInt32 x = wrapInt32 y := by
  unfold Int.ModEq at h
  unfold wrapInt32
  omega

theorem wrapInt32_congr64 {x y : Int} (h : x ≡ y [ZMOD 2 ^ 64]) : wrapInt32 x = wrapInt32 y := by
  unfold Int.ModEq at h
  unfold wrapInt32
  omega

/-- For a dimension of at most 46340 the offset of a cell of the matrix is
computed without overflow. -/
theorem index_eq {r dim c : Int} (hr : 0 ≤ r) (hrd : r < dim) (hc : 0 ≤ c) (hcd : c < dim)
    (hd : dim ≤ 46340) : index r dim c = r * dim + c := by
  have h1 : r * dim ≤ (dim - 1) * dim := by nlinarith
  have h2 : (dim - 1) * dim ≤ 46339 * 46340 := by nlinarith
  have h3 : 0 ≤ r * dim := mul_nonneg hr (by omega)
  unfold index
  rw [wrapInt32_of_inInt32 (x := r * dim), wrapInt32_of_inInt32]
  · unfold InInt32; constructor <;> omega
  · unfold InInt32; constructor <;> omega

/-! ## Loops -/

theorem loopFrom_succ_last {σ : Type} (body : Int → σ → σ) (n : Nat) (i : Int) (s : σ) :
    loopFrom body (n + 1) i s = body (i + n) (loopFrom body n i s) := by
  induction n generalizing i s with
  | zero => simp [loopFrom]
  | succ n ih =>
    rw [loopFrom, ih (i + 1) (body i s)]
    have : i + 1 + (n : Int) = i + ((n + 1 : Nat) : Int) := by push_cast; ring
    rw [this]
    rfl

/-! ## The `k` loop -/

theorem running_sum_succ (m : Memory) (dim r c : Int) (n : Nat) :
    running_sum m dim r c (n + 1) = sum_step m dim r c n (running_sum m dim r c n) := by
  unfold running_sum
  rw [loopFrom_succ_last]
  simp

theorem dot_product_eq_running_sum (m : Memory) (dim r c : Int) :
    dot_product m dim r c = running_sum m dim r c dim.toNat := by
  simp [dot_product, forLoop, running_sum]

/-- The variable `sum` after `n` iterations is congruent modulo `2^64` to the
exact sum of the first `n` products. -/
theorem running_sum_modEq (m : Memory) {dim r c : Int} (hr : 0 ≤ r) (hrd : r < dim)
    (hc : 0 ≤ c) (hcd : c < dim) (hd : dim ≤ 46340) (n : Nat) (hn : (n : Int) ≤ dim) :
    running_sum m dim r c n ≡
      ∑ k in Finset.range n, m.A (r * dim + k) * m.B (k * dim + c) [ZMOD 2 ^ 64] := by
  induction n with
  | zero => simp [running_sum, loopFrom]
  | succ n ih =>
    have hn1 : (n : Int) < dim := by push_cast at hn; omega
    rw [running_sum_succ, Finset.sum_range_succ]
    unfold sum_step acc_exact
    rw [index_eq hr hrd (by omega) hn1 hd, index_eq (by omega) hn1 hc hcd hd]
    refine (wrapInt64_modEq _).trans ?_
    exact Int.ModEq.add (ih (by omega)) (wrapInt64_modEq _)

/-- The narrowed result of the `k` loop is the narrowed exact sum. -/
theorem dot_product_narrow (m : Memory) {dim r c : Int} (hr : 0 ≤ r) (hrd : r < dim)
    (hc : 0 ≤ c) (hcd : c < dim) (hd : dim ≤ 46340) :
    wrapInt32 (dot_product m dim r c) = wrapInt32 (exact_sum m.A m.B dim r c) := by
  rw [dot_product_eq_running_sum]
  apply wrapInt32_congr64
  have h := running_sum_modEq m hr hrd hc hcd hd dim.toNat (by omega)
  simpa [exact_sum] using h

theorem row_col_of_offset {r dim c : Int} (hc : 0 ≤ c) (hcd : c < dim) :
    (r * dim + c) / dim = r ∧ (r * dim + c) % dim = c := by
  have hd : 0 < dim := by omega
  rw [Int.ediv_emod_unique hd]
  exact ⟨by ring, hc, hcd⟩

theorem offset_row_iff {dim : Int} (hd : 0 < dim) (s e i : Int) :
    (s * dim ≤ i ∧ i < e * dim) ↔ (s ≤ i / dim ∧ i / dim < e) := by
  rw [Int.le_ediv_iff_mul_le hd, Int.ediv_lt_iff_lt_mul hd]

/-! ## The `c` loop, the `r` loop and the worker -/

theorem cell_step_eq (m : Memory) {dim r c : Int} (hr : 0 ≤ r) (hrd : r < dim)
    (hc : 0 ≤ c) (hcd : c < dim) (hd : dim ≤ 46340) :
    cell_step dim r c m =
      { m with C := Function.update m.C (r * dim + c) (product_cell m.A m.B dim (r * dim + c)) } := by
  unfold cell_step product_cell
  rw [index_eq hr hrd hc hcd hd, dot_product_narrow m hr hrd hc hcd hd,
    (row_col_of_offset hc hcd).1, (row_col_of_offset hc hcd).2]

theorem cell_loop_eq {dim r : Int} (hr : 0 ≤ r) (hrd : r < dim) (hd : dim ≤ 46340)
    (n : Nat) (c0 : Int) (m : Memory) (hc0 : 0 ≤ c0) (hn : c0 + n ≤ dim) :
    loopFrom (cell_step dim r) n c0 m =
      { m with C := fun i => if r * dim + c0 ≤ i ∧ i < r * dim + c0 + n
                  then product_cell m.A m.B dim i else m.C i } := by
  induction n with
  | zero =>
    cases m
    simp only [loopFrom, Memory.mk.injEq, true_and]
    funext i
    rw [if_neg]
    push_cast
    omega
  | succ n ih =>
    rw [loopFrom_succ_last, ih (by push_cast at hn; omega),
      cell_step_eq _ hr hrd (by omega) (by push_cast at hn; omega) hd]
    cases m with
    | mk A B C =>
      simp only [Memory.mk.injEq, true_and]
      funext i
      by_cases hi : i = r * dim + (c0 + n)
      · subst hi
        rw [Function.update_same, if_pos]
        push_cast
        constructor <;> omega
      · rw [Function.update_noteq hi]
        push_cast
        by_cases h1 : r * dim + c0 ≤ i ∧ i < r * dim + c0 + n
        · rw [if_pos h1, if_pos ⟨h1.1, by omega⟩]
        · rw [if_neg h1, if_neg (by omega)]

theorem row_step_eq {dim r : Int} (hr : 0 ≤ r) (hrd : r < dim) (hd : dim ≤ 46340) (m : Memory) :
    row_step dim r m =
      { m with C := fun i => if r * dim ≤ i ∧ i < r * dim + dim
                  then product_cell m.A m.B dim i else m.C i } := by
  unfold row_step forLoop
  rw [cell_loop_eq hr hrd hd _ 0 m (le_refl 0) (by simp; omega)]
  have h : ((dim - 0).toNat : Int) = dim := by simp; omega
  simp only [add_zero, h]

theorem row_loop_eq {dim : Int} (hd : dim ≤ 46340) (n : Nat) (r0 : Int) (m : Memory)
    (hr0 : 0 ≤ r0) (hn : r0 + n ≤ dim) :
    loopFrom (row_step dim) n r0 m =
      { m with C := fun i => if r0 * dim ≤ i ∧ i < (r0 + n) * dim
                  then product_cell m.A m.B dim i else m.C i } := by
  induction n with
  | zero =>
    cases m
    simp only [loopFrom, Memory.mk.injEq, true_and, Nat.cast_zero, add_zero]
    funext i
    rw [if_neg]
    omega
  | succ n ih =>
    rw [loopFrom_succ_last, ih (by push_cast at hn; omega),
      row_step_eq (by omega) (by push_cast at hn; omega) hd]
    cases m with
    | mk A B C =>
      simp only [Memory.mk.injEq, true_and]
      funext i
      have e1 : (r0 + (n : Int)) * dim + dim = (r0 + ((n + 1 : Nat) : Int)) * dim := by
        push_cast; ring
      have h0 : r0 * dim ≤ (r0 + (n : Int)) * dim :=
        mul_le_mul_of_nonneg_right (by omega) (by omega)
      rw [e1]
      by_cases h1 : (r0 + (n : Int)) * dim ≤ i ∧ i < (r0 + ((n + 1 : Nat) : Int)) * dim
      · rw [if_pos h1, if_pos ⟨by omega, h1.2⟩]
      · rw [if_neg h1]
        by_cases h2 : r0 * dim ≤ i ∧ i < (r0 + (n : Int)) * dim
        · rw [if_pos h2, if_pos ⟨h2.1, by omega⟩]
        · rw [if_neg h2, if_neg (by omega)]

/-- The worker on a row range within `[0, dimension]`, for a dimension of at
most 46340: the cells of its rows receive the cells of the product, every
other cell of `C` and the whole of `A` and `B` stay as they were. -/
theorem multiply_rows_eq (args : thread_args_t) (m : Memory) (h0 : 0 ≤ args.start_row)
    (h1 : args.start_row ≤ args.end_row) (h2 : args.end_row ≤ args.dimension)
    (hd : args.dimension ≤ 46340) :
    multiply_rows args m =
      { m with C := fun i =>
          if args.start_row * args.dimension ≤ i ∧ i < args.end_row * args.dimension
          then product_cell m.A m.B args.dimension i else m.C i } := by
  unfold multiply_rows forLoop
  rw [row_loop_eq hd _ _ m h0 (by omega)]
  have h : args.start_row + ((args.end_row - args.start_row).toNat : Int) = args.end_row := by
    omega
  rw [h]

/-! ## The partition of the rows -/

theorem first_row_zero (base rem : Int) (hrem : 0 ≤ rem) : first_row base rem 0 = 0 := by
  unfold first_row
  simp [hrem]

theorem first_row_succ (base rem : Int) (j : Nat) :
    first_row base rem (j + 1) =
      first_row base rem j + base + (if (j : Int) < rem then 1 else 0) := by
  unfold first_row
  have e : ((j + 1 : Nat) : Int) * base = (j : Int) * base + base := by push_cast; ring
  rw [e]
  push_cast
  split_ifs <;> omega

theorem first_row_le_succ {base rem : Int} (hb : 0 ≤ base) (j : Nat) :
    first_row base rem j ≤ first_row base rem (j + 1) := by
  rw [first_row_succ]
  split_ifs <;> omega

theorem first_row_mono {base : Int} (rem : Int) (hb : 0 ≤ base) {j k : Nat} (h : j ≤ k) :
    first_row base rem j ≤ first_row base rem k := by
  induction k with
  | zero =>
    have : j = 0 := by omega
    subst this
    exact le_refl _
  | succ k ih =>
    by_cases hjk : j = k + 1
    · subst hjk
      exact le_refl _
    · exact le_trans (ih (by omega)) (first_row_le_succ hb k)

/-- The last worker ends at `dimension`. -/
theorem first_row_threads {dimension threads : Int} (ht : 0 < threads) :
    first_row (dimension / threads) (dimension % threads) threads.toNat = dimension := by
  unfold first_row
  have h1 : ((threads.toNat : Nat) : Int) = threads := Int.toNat_of_nonneg (by omega)
  have h2 : dimension % threads < threads := Int.emod_lt_of_pos _ ht
  have h3 := Int.ediv_add_emod dimension threads
  rw [h1, min_eq_right (by omega)]
  exact h3

/-- Every row between the first rows of worker `0` and worker `n` lies in the
range of one of the workers before `n`. -/
theorem first_row_cover (base rem r : Int) (n : Nat) (h0 : first_row base rem 0 ≤ r)
    (hn : r < first_row base rem n) :
    ∃ j, j < n ∧ first_row base rem j ≤ r ∧ r < first_row base rem (j + 1) := by
  induction n with
  | zero => omega
  | succ n ih =>
    by_cases h : r < first_row base rem n
    · obtain ⟨j, hj, h1, h2⟩ := ih h
      exact ⟨j, by omega, h1, h2⟩
    · exact ⟨n, by omega, by omega, hn⟩

theorem fill_targs_eq (d base rem : Int) (n i : Nat) :
    fill_targs d base rem n i (first_row base rem i) =
      (List.range n).map (fun j =>
        { dimension := d, start_row := first_row base rem (i + j),
          end_row := first_row base rem (i + j + 1) }) := by
  induction n generalizing i with
  | zero => rfl
  | succ n ih =>
    have e : first_row base rem i + base + (if (i : Int) < rem then 1 else 0) =
        first_row base rem (i + 1) := (first_row_succ base rem i).symm
    have e2 : (if (i : Int) < rem then first_row base rem i + base + 1
        else first_row base rem i + base) = first_row base rem (i + 1) := by
      rw [← e]
      split_ifs <;> omega
    have e3 : ((i : Int) + 1) = ((i + 1 : Nat) : Int) := by push_cast; rfl
    rw [fill_targs, List.range_succ_eq_map, List.map_cons, List.map_map]
    simp only [e2, e3]
    rw [ih (i + 1)]
    congr 1
    apply List.map_congr_left
    intro j _
    simp only [Function.comp, Nat.succ_eq_add_one]
    have a1 : i + 1 + j = i + (j + 1) := by omega
    rw [a1]

/-- The array `targs` in closed form. -/
theorem targs_eq {dimension threads : Int} (hd : 0 ≤ dimension) (ht : 0 < threads) :
    targs dimension threads =
      (List.range threads.toNat).map (fun j =>
        { dimension := dimension,
          start_row := first_row (dimension / threads) (dimension % threads) j,
          end_row := first_row (dimension / threads) (dimension % threads) (j + 1) }) := by
  have hrem : 0 ≤ dimension % threads := Int.emod_nonneg _ (by omega)
  have h := fill_targs_eq dimension (dimension / threads) (dimension % threads) threads.toNat 0
  rw [first_row_zero _ _ hrem] at h
  unfold targs
  rw [Int.tdiv_eq_ediv hd (by omega), Int.tmod_eq_emod hd (by omega)]
  simpa using h

theorem targs_getElem? {dimension threads : Int} (hd : 0 ≤ dimension) (ht : 0 < threads)
    (j : Nat) (a : thread_args_t) :
    (targs dimension threads)[j]? = some a ↔
      j < threads.toNat ∧
        a = { dimension := dimension,
              start_row := first_row (dimension / threads) (dimension % threads) j,
              end_row := first_row (dimension / threads) (dimension % threads) (j + 1) } := by
  rw [targs_eq hd ht, List.getElem?_map]
  by_cases hj : j < threads.toNat
  · rw [List.getElem?_range hj]
    simp [hj, eq_comm]
  · rw [List.getElem?_eq_none (by simpa using hj)]
    simp [hj]

theorem mem_targs {dimension threads : Int} (hd : 0 ≤ dimension) (ht : 0 < threads)
    (a : thread_args_t) :
    a ∈ targs dimension threads ↔
      ∃ j, j < threads.toNat ∧
        a = { dimension := dimension,
              start_row := first_row (dimension / threads) (dimension % threads) j,
              end_row := first_row (dimension / threads) (dimension % threads) (j + 1) } := by
  rw [targs_eq hd ht, List.mem_map]
  constructor
  · rintro ⟨j, hj, rfl⟩
    exact ⟨j, List.mem_range.1 hj, rfl⟩
  · rintro ⟨j, hj, rfl⟩
    exact ⟨j, List.mem_range.2 hj, rfl⟩

/-- Every range of `targs` lies within `[0, dimension]` and carries `dimension`. -/
theorem targs_range_ok {dimension threads : Int} (hd : 0 ≤ dimension) (ht : 0 < threads)
    {a : thread_args_t} (ha : a ∈ targs dimension threads) :
    a.dimension = dimension ∧ 0 ≤ a.start_row ∧ a.start_row ≤ a.end_row ∧
      a.end_row ≤ dimension := by
  have hb : 0 ≤ dimension / threads := Int.ediv_nonneg hd (by omega)
  have hrem : 0 ≤ dimension % threads := Int.emod_nonneg _ (by omega)
  obtain ⟨j, hj, rfl⟩ := (mem_targs hd ht a).1 ha
  refine ⟨rfl, ?_, first_row_le_succ hb j, ?_⟩
  · have := first_row_mono (dimension % threads) hb (Nat.zero_le j)
    rw [first_row_zero _ _ hrem] at this
    exact this
  · have := first_row_mono (dimension % threads) hb (show j + 1 ≤ threads.toNat by omega)
    rw [first_row_threads ht] at this
    exact this

/-! ## The workers together -/

/-- The workers of a list of ranges within `[0, dim]`, run in the order of the
list: a cell of a row of one of the ranges holds the cell of the product, any
other cell of `C` holds what it held, `A` and `B` are as they were. -/
theorem run_workers_spec {dim : Int} (hd : dim ≤ 46340) (sched : List thread_args_t)
    (m : Memory)
    (h : ∀ a ∈ sched, a.dimension = dim ∧ 0 ≤ a.start_row ∧ a.start_row ≤ a.end_row ∧
      a.end_row ≤ dim) :
    (run_workers sched m).A = m.A ∧ (run_workers sched m).B = m.B ∧
    ∀ i, ((∃ a ∈ sched, a.start_row * dim ≤ i ∧ i < a.end_row * dim) →
        (run_workers sched m).C i = product_cell m.A m.B dim i) ∧
      ((¬ ∃ a ∈ sched, a.start_row * dim ≤ i ∧ i < a.end_row * dim) →
        (run_workers sched m).C i = m.C i) := by
  induction sched generalizing m with
  | nil =>
    refine ⟨rfl, rfl, fun i => ⟨?_, fun _ => rfl⟩⟩
    rintro ⟨a, ha, _⟩
    simp at ha
  | cons a l ih =>
    obtain ⟨hdim, h0, h1, h2⟩ := h a (List.mem_cons_self a l)
    have hl : ∀ b ∈ l, b.dimension = dim ∧ 0 ≤ b.start_row ∧ b.start_row ≤ b.end_row ∧
        b.end_row ≤ dim := fun b hb => h b (List.mem_cons_of_mem a hb)
    have hstep : run_workers (a :: l) m = run_workers l (multiply_rows a m) := rfl
    have hm := multiply_rows_eq a m h0 h1 (by omega) (by omega)
    rw [hdim] at hm
    obtain ⟨iA, iB, iC⟩ := ih (multiply_rows a m) hl
    rw [hstep]
    have eA : (multiply_rows a m).A = m.A := by rw [hm]
    have eB : (multiply_rows a m).B = m.B := by rw [hm]
    refine ⟨iA.trans eA, iB.trans eB, fun i => ⟨?_, ?_⟩⟩
    · rintro ⟨b, hb, hin⟩
      by_cases hex : ∃ b ∈ l, b.start_row * dim ≤ i ∧ i < b.end_row * dim
      · rw [(iC i).1 hex, eA, eB]
      · rw [(iC i).2 hex]
        rcases List.mem_cons.1 hb with rfl | hb'
        · rw [hm]
          simp only
          rw [if_pos hin]
        · exact absurd ⟨b, hb', hin⟩ hex
    · intro hno
      have hex : ¬ ∃ b ∈ l, b.start_row * dim ≤ i ∧ i < b.end_row * dim := by
        rintro ⟨b, hb, hin⟩
        exact hno ⟨b, List.mem_cons_of_mem a hb, hin⟩
      have ha : ¬ (a.start_row * dim ≤ i ∧ i < a.end_row * dim) := fun hin =>
        hno ⟨a, List.mem_cons_self a l, hin⟩
      rw [(iC i).2 hex, hm]
      simp only
      rw [if_neg ha]

/-- The ranges of `targs` cover exactly the offsets `[0, dimension * dimension)`. -/
theorem targs_cover {dimension threads : Int} (hd : 0 ≤ dimension) (ht : 0 < threads) (i : Int) :
    (∃ a ∈ targs dimension threads,
        a.start_row * dimension ≤ i ∧ i < a.end_row * dimension) ↔
      (0 ≤ i ∧ i < dimension * dimension) := by
  have hrem : 0 ≤ dimension % threads := Int.emod_nonneg _ (by omega)
  constructor
  · rintro ⟨a, ha, h1, h2⟩
    obtain ⟨_, h0, _, hend⟩ := targs_range_ok hd ht ha
    have e1 : 0 ≤ a.start_row * dimension := mul_nonneg h0 hd
    have e2 : a.end_row * dimension ≤ dimension * dimension :=
      mul_le_mul_of_nonneg_right hend hd
    omega
  · rintro ⟨h0, h1⟩
    have hpos : 0 < dimension := by
      by_contra hle
      have : dimension = 0 := by omega
      subst this
      omega
    have hrow := (offset_row_iff hpos 0 dimension i).1 ⟨by omega, h1⟩
    have c0 : first_row (dimension / threads) (dimension % threads) 0 ≤ i / dimension := by
      rw [first_row_zero _ _ hrem]
      exact hrow.1
    have cn : i / dimension <
        first_row (dimension / threads) (dimension % threads) threads.toNat := by
      rw [first_row_threads ht]
      exact hrow.2
    obtain ⟨j, hj, h1', h2'⟩ := first_row_cover _ _ _ _ c0 cn
    refine ⟨_, (mem_targs hd ht _).2 ⟨j, hj, rfl⟩, ?_⟩
    exact (offset_row_iff hpos _ _ i).2 ⟨h1', h2'⟩

/-! ## The size validation -/

theorem sqrt_lt_of_lt (e : Nat) (he : e < 2 ^ 62) : Nat.sqrt e < 2 ^ 31 := by
  by_contra h
  have h1 : 2 ^ 31 ≤ Nat.sqrt e := by omega
  have h2 := Nat.sqrt_le e
  have h3 : 2 ^ 31 * 2 ^ 31 ≤ Nat.sqrt e * Nat.sqrt e := Nat.mul_le_mul h1 h1
  omega

/-- The check of lines 159-160 lets through exactly the element counts `d * d`
with `0 ≤ d ≤ 46340`, and gives them the dimension `d`. -/
theorem square_dimension_eq_some_iff (e : Nat) (he : e < 2 ^ 62) (d : Int) :
    square_dimension e = some d ↔ (0 ≤ d ∧ d ≤ 46340 ∧ (e : Int) = d * d) := by
  have hs := sqrt_lt_of_lt e he
  have hle := Nat.sqrt_le e
  have hfs : floor_sqrt e = (Nat.sqrt e : Int) := by
    unfold floor_sqrt
    apply wrapInt32_of_inInt32
    unfold InInt32
    constructor <;> omega
  have hw := wrapInt32_inInt32 ((Nat.sqrt e : Int) * (Nat.sqrt e : Int))
  unfold InInt32 at hw
  unfold square_dimension
  simp only [hfs]
  constructor
  · intro h
    split_ifs at h with hne
    simp only [Option.some.injEq] at h
    have heq : toSizeT (wrapInt32 ((Nat.sqrt e : Int) * (Nat.sqrt e : Int))) = e := by
      simpa using hne
    have hcast : ((Nat.sqrt e * Nat.sqrt e : Nat) : Int) ≤ (e : Int) := by exact_mod_cast hle
    push_cast at hcast
    have hnn : 0 ≤ wrapInt32 ((Nat.sqrt e : Int) * (Nat.sqrt e : Int)) := by
      by_contra hneg
      unfold toSizeT at heq
      omega
    have hval : wrapInt32 ((Nat.sqrt e : Int) * (Nat.sqrt e : Int)) = (e : Int) := by
      unfold toSizeT at heq
      omega
    have hsmall : (e : Int) < 2 ^ 31 := by omega
    have hid : wrapInt32 ((Nat.sqrt e : Int) * (Nat.sqrt e : Int)) =
        (Nat.sqrt e : Int) * (Nat.sqrt e : Int) := by
      apply wrapInt32_of_inInt32
      unfold InInt32
      constructor
      · have := mul_nonneg (Int.natCast_nonneg (Nat.sqrt e)) (Int.natCast_nonneg (Nat.sqrt e))
        omega
      · omega
    subst h
    refine ⟨Int.natCast_nonneg _, ?_, by omega⟩
    by_contra hbig
    have h1 : (46341 : Int) ≤ (Nat.sqrt e : Int) := by omega
    have h3 : (46341 : Int) * 46341 ≤ (Nat.sqrt e : Int) * (Nat.sqrt e : Int) :=
      mul_le_mul h1 h1 (by norm_num) (by omega)
    omega
  · rintro ⟨h0, h1, h2⟩
    have hdn : ((d.toNat : Nat) : Int) = d := Int.toNat_of_nonneg h0
    have hen : e = d.toNat * d.toNat := by
      have : (e : Int) = ((d.toNat * d.toNat : Nat) : Int) := by
        push_cast
        rw [hdn]
        exact h2
      exact_mod_cast this
    have hsq : Nat.sqrt e = d.toNat := by
      rw [hen]
      exact Nat.sqrt_eq _
    have hdd : d * d ≤ 46340 * 46340 := mul_le_mul h1 h1 h0 (by norm_num)
    have hdd0 : 0 ≤ d * d := mul_nonneg h0 h0
    have hid : wrapInt32 (d * d) = d * d := by
      apply wrapInt32_of_inInt32
      unfold InInt32
      constructor <;> omega
    rw [hsq, hdn, hid]
    have hsz : toSizeT (d * d) = e := by
      unfold toSizeT
      omega
    rw [if_neg (by simpa using hsz)]

theorem elements_lt {size : Nat} (h : size < 2 ^ 64) : size / 4 < 2 ^ 62 := by
  omega

/-- The size validation succeeds exactly on two files of `4 * d * d` bytes each
with `0 ≤ d ≤ 46340`, and then yields `d`. -/
theorem validate_ok_iff (size1 size2 : Nat) (h1 : size1 < 2 ^ 64) (h2 : size2 < 2 ^ 64)
    (d : Int) :
    validate size1 size2 = .ok d ↔
      (0 ≤ d ∧ d ≤ 46340 ∧ (size1 : Int) = 4 * (d * d) ∧ (size2 : Int) = 4 * (d * d)) := by
  have i1 := square_dimension_eq_some_iff (size1 / 4) (elements_lt h1)
  have i2 := square_dimension_eq_some_iff (size2 / 4) (elements_lt h2)
  unfold validate
  by_cases hm : size1 % 4 ≠ 0 ∨ size2 % 4 ≠ 0
  · rw [if_pos hm]
    constructor
    · intro h
      exact Except.noConfusion h
    · rintro ⟨_, _, e1, e2⟩
      omega
  · rw [if_neg hm]
    have hm1 : size1 % 4 = 0 := by omega
    have hm2 : size2 % 4 = 0 := by omega
    have c1 : ((size1 / 4 : Nat) : Int) * 4 = (size1 : Int) := by omega
    have c2 : ((size2 / 4 : Nat) : Int) * 4 = (size2 : Int) := by omega
    dsimp only
    rcases hq1 : square_dimension (size1 / 4) with _ | d1
    · dsimp only
      constructor
      · intro h
        exact Except.noConfusion h
      · rintro ⟨k0, k1, e1, _⟩
        have := (i1 d).2 ⟨k0, k1, by omega⟩
        rw [hq1] at this
        exact Option.noConfusion this
    · rcases hq2 : square_dimension (size2 / 4) with _ | d2
      · dsimp only
        constructor
        · intro h
          exact Except.noConfusion h
        · rintro ⟨k0, k1, _, e2⟩
          have := (i2 d).2 ⟨k0, k1, by omega⟩
          rw [hq2] at this
          exact Option.noConfusion this
      · dsimp only
        obtain ⟨a0, a1, a2⟩ := (i1 d1).1 hq1
        obtain ⟨b0, b1, b2⟩ := (i2 d2).1 hq2
        by_cases hne : d1 ≠ d2
        · rw [if_pos hne]
          constructor
          · intro h
            exact Except.noConfusion h
          · rintro ⟨k0, k1, e1, e2⟩
            have t1 := (i1 d).2 ⟨k0, k1, by omega⟩
            have t2 := (i2 d).2 ⟨k0, k1, by omega⟩
            rw [hq1] at t1
            rw [hq2] at t2
            simp only [Option.some.injEq] at t1 t2
            exact absurd (t1.trans t2.symm) hne
        · rw [if_neg hne]
          have hdd : d1 = d2 := by
            by_contra h
            exact hne h
          subst hdd
          constructor
          · intro h
            simp only [Except.ok.injEq] at h
            subst h
            exact ⟨a0, a1, by omega, by omega⟩
          · rintro ⟨k0, k1, e1, _⟩
            have t1 := (i1 d).2 ⟨k0, k1, by omega⟩
            rw [hq1] at t1
            simp only [Option.some.injEq] at t1
            rw [t1]

/-- Two files of `n * n` integers each, `0 ≤ n ≤ 46340`, pass the validation
with dimension `n`. -/
theorem validate_square (n : Nat) (hn : n ≤ 46340) :
    validate (4 * n * n) (4 * n * n) = .ok (n : Int) := by
  have hb : 4 * n * n < 2 ^ 64 := by
    have : n * n ≤ 46340 * 46340 := Nat.mul_le_mul hn hn
    have e : 4 * n * n = 4 * (n * n) := by ring
    omega
  rw [validate_ok_iff _ _ hb hb]
  refine ⟨Int.natCast_nonneg n, by omega, ?_, ?_⟩ <;>
  · push_cast
    ring

theorem validate_error_of_malformed (size1 size2 : Nat) (h : size1 % 4 ≠ 0 ∨ size2 % 4 ≠ 0) :
    validate size1 size2 = .error .MalformedSize := by
  unfold validate
  rw [if_pos h]

theorem validate_error_of_first (size1 size2 : Nat) (hm1 : size1 % 4 = 0) (hm2 : size2 % 4 = 0)
    (h : square_dimension (size1 / 4) = none) :
    validate size1 size2 = .error (.NotSquare 1) := by
  unfold validate
  rw [if_neg (by omega)]
  dsimp only
  rw [h]

theorem validate_error_of_second (size1 size2 : Nat) (hm1 : size1 % 4 = 0) (hm2 : size2 % 4 = 0)
    (h : square_dimension (size2 / 4) = none) :
    ∃ w, validate size1 size2 = .error (.NotSquare w) := by
  unfold validate
  rw [if_neg (by omega)]
  dsimp only
  rcases hq : square_dimension (size1 / 4) with _ | d1
  · exact ⟨1, rfl⟩
  · exact ⟨2, by rw [h]⟩

theorem square_dimension_none_of_not_square (e : Nat) (he : e < 2 ^ 62)
    (h : ¬ ∃ n : Nat, e = n * n) : square_dimension e = none := by
  rcases hq : square_dimension e with _ | d
  · rfl
  · exfalso
    obtain ⟨d0, _, de⟩ := (square_dimension_eq_some_iff e he d).1 hq
    apply h
    refine ⟨d.toNat, ?_⟩
    have hdn : ((d.toNat : Nat) : Int) = d := Int.toNat_of_nonneg d0
    have : (e : Int) = ((d.toNat * d.toNat : Nat) : Int) := by
      push_cast
      rw [hdn]
      exact de
    exact_mod_cast this

/-! ## `main` -/

theorem main_of_validate_error {size1 size2 : Nat} {e : MainError} (threads : Int) (m : Memory)
    (ht : 0 < threads) (h : validate size1 size2 = .error e) :
    main size1 size2 threads m = .error e := by
  unfold main
  rw [if_neg (by omega)]
  simp only [h]

theorem main_of_validate_ok {size1 size2 : Nat} {d : Int} (threads : Int) (m : Memory)
    (ht : 0 < threads) (h : validate size1 size2 = .ok d) :
    main size1 size2 threads m =
      .ok { dimension := d, output_size := output_size d, workers := targs d threads,
            mem := run_workers (targs d threads) m } := by
  unfold main
  rw [if_neg (by omega)]
  simp only [h]

/-- Run in any order, the workers of `targs` leave in `C` the product in the
cells `[0, N * N)` and the former content elsewhere. -/
theorem run_targs_eq {N T : Int} (hN0 : 0 ≤ N) (hN : N ≤ 46340) (hT : 0 < T) (m : Memory)
    (sched : List thread_args_t) (hp : sched.Perm (targs N T)) :
    run_workers sched m =
      { m with C := fun i => if 0 ≤ i ∧ i < N * N then product_cell m.A m.B N i else m.C i } := by
  have hok : ∀ a ∈ sched, a.dimension = N ∧ 0 ≤ a.start_row ∧ a.start_row ≤ a.end_row ∧
      a.end_row ≤ N := fun a ha => targs_range_ok hN0 hT (hp.mem_iff.1 ha)
  obtain ⟨eA, eB, eC⟩ := run_workers_spec hN sched m hok
  have hcov : ∀ i, (∃ a ∈ sched, a.start_row * N ≤ i ∧ i < a.end_row * N) ↔
      (0 ≤ i ∧ i < N * N) := by
    intro i
    rw [← targs_cover hN0 hT i]
    constructor
    · rintro ⟨a, ha, h⟩
      exact ⟨a, hp.mem_iff.1 ha, h⟩
    · rintro ⟨a, ha, h⟩
      exact ⟨a, hp.mem_iff.2 ha, h⟩
  rcases hrun : run_workers sched m with ⟨A', B', C'⟩
  rw [hrun] at eA eB eC
  simp only at eA eB eC
  subst eA eB
  cases m with
  | mk A B C =>
    simp only [Memory.mk.injEq, true_and]
    funext i
    by_cases hi : 0 ≤ i ∧ i < N * N
    · rw [if_pos hi]
      exact (eC i).1 ((hcov i).2 hi)
    · rw [if_neg hi]
      exact (eC i).2 (fun h => hi ((hcov i).1 h))

theorem product_cell_at (A B : Buffer) {N r c : Int} (hc : 0 ≤ c) (hcN : c < N) :
    product_cell A B N (r * N + c) = wrapInt32 (exact_sum A B N r c) := by
  unfold product_cell
  rw [(row_col_of_offset hc hcN).1, (row_col_of_offset hc hcN).2]

theorem offset_in_matrix {N r c : Int} (hr : 0 ≤ r) (hrN : r < N) (hc : 0 ≤ c) (hcN : c < N) :
    0 ≤ r * N + c ∧ r * N + c < N * N := by
  have h1 : 0 ≤ r * N := mul_nonneg hr (by omega)
  have h2 : (r + 1) * N ≤ N * N := mul_le_mul_of_nonneg_right (by omega) (by omega)
  have h3 : (r + 1) * N = r * N + N := by ring
  omega

/-! ## The workers as concurrent threads -/

theorem run_schedule_cons (j : Nat) (sched : List Nat) (s : Pool) :
    run_schedule (j :: sched) s = run_schedule sched (Pool.step j s) := rfl

/-- The invariant survives the replacement of the state of thread `j` and of
the memory, when the cells newly stored are those of `P` and they hold the
product. -/
theorem Pool.inv_update {dim : Int} {as : List thread_args_t} {m0 : Memory} {s : Pool}
    (h : Pool.Inv dim as m0 s) {j : Nat} (hj : j < s.threads) (w' : Worker) (m' : Memory)
    (P : Int → Prop) (hargs : w'.args = (s.worker j).args) (hcons : w'.Consistent dim)
    (hA : m'.A = s.mem.A) (hB : m'.B = s.mem.B)
    (hb : ∀ i, (w'.args.start_row * dim ≤ i ∧ i < w'.r * dim + w'.c) ↔
      (((s.worker j).args.start_row * dim ≤ i ∧ i < (s.worker j).r * dim + (s.worker j).c) ∨
        P i))
    (hm : ∀ i, (P i → m'.C i = product_cell m0.A m0.B dim i) ∧ (¬ P i → m'.C i = s.mem.C i)) :
    Pool.Inv dim as m0
      { s with worker := Function.update s.worker j w', mem := m' } := by
  obtain ⟨hlen, hw, iA, iB, iC⟩ := h
  have hwr : ∀ i, Pool.Written { s with worker := Function.update s.worker j w', mem := m' } dim i ↔
      (Pool.Written s dim i ∨ P i) := by
    intro i
    unfold Pool.Written
    simp only
    constructor
    · rintro ⟨k, hk, hbk⟩
      by_cases hkj : k = j
      · subst hkj
        rw [Function.update_same] at hbk
        rcases (hb i).1 hbk with h1 | h2
        · exact Or.inl ⟨k, hk, h1⟩
        · exact Or.inr h2
      · rw [Function.update_noteq hkj] at hbk
        exact Or.inl ⟨k, hk, hbk⟩
    · rintro (⟨k, hk, hbk⟩ | hP)
      · by_cases hkj : k = j
        · subst hkj
          refine ⟨k, hk, ?_⟩
          rw [Function.update_same]
          exact (hb i).2 (Or.inl hbk)
        · refine ⟨k, hk, ?_⟩
          rw [Function.update_noteq hkj]
          exact hbk
      · refine ⟨j, hj, ?_⟩
        rw [Function.update_same]
        exact (hb i).2 (Or.inr hP)
  refine ⟨hlen, ?_, hA.trans iA, hB.trans iB, ?_⟩
  · intro k hk
    simp only
    by_cases hkj : k = j
    · subst hkj
      rw [Function.update_same]
      exact ⟨hargs.trans (hw k hk).1, hcons⟩
    · rw [Function.update_noteq hkj]
      exact hw k hk
  · intro i
    rw [hwr i]
    simp only
    constructor
    · intro hor
      by_cases hP : P i
      · exact (hm i).1 hP
      · rw [(hm i).2 hP]
        rcases hor with h1 | h2
        · exact (iC i).1 h1
        · exact absurd h2 hP
    · intro hno
      have hP : ¬ P i := fun hp => hno (Or.inr hp)
      rw [(hm i).2 hP]
      exact (iC i).2 (fun hwi => hno (Or.inl hwi))

/-- One turn of a thread keeps the invariant. -/
theorem Pool.inv_step {dim : Int} (hd : dim ≤ 46340) {as : List thread_args_t} {m0 : Memory}
    {s : Pool} (h : Pool.Inv dim as m0 s) (j : Nat) : Pool.Inv dim as m0 (Pool.step j s) := by
  unfold Pool.step
  by_cases hj : j < s.threads
  · rw [if_pos hj]
    obtain ⟨cd, c0, c1, c2, c3, c4, c5, c6⟩ := (h.2.1 j hj).2
    have iA := h.2.2.1
    have iB := h.2.2.2.1
    by_cases hr : (s.worker j).r < (s.worker j).args.end_row
    · by_cases hc : (s.worker j).c < (s.worker j).args.dimension
      · have hst : (s.worker j).step s.mem =
            ({ (s.worker j) with c := (s.worker j).c + 1 },
              cell_step (s.worker j).args.dimension (s.worker j).r (s.worker j).c s.mem) := by
          unfold Worker.step
          rw [if_pos hr, if_pos hc]
        rw [hst, cd]
        rw [cd] at hc
        have hce := cell_step_eq s.mem (show 0 ≤ (s.worker j).r by omega)
          (show (s.worker j).r < dim by omega) c4 hc hd
        have hrow : (s.worker j).args.start_row * dim ≤ (s.worker j).r * dim :=
          mul_le_mul_of_nonneg_right c1 (by omega)
        refine Pool.inv_update h hj { (s.worker j) with c := (s.worker j).c + 1 }
          (cell_step dim (s.worker j).r (s.worker j).c s.mem)
          (fun i => i = (s.worker j).r * dim + (s.worker j).c) rfl ?_ ?_ ?_ ?_ ?_
        · exact ⟨cd, c0, c1, c2, c3, by simp only; omega, by simp only; omega,
            fun he => absurd he (by simp only; omega)⟩
        · rw [hce]
        · rw [hce]
        · intro i
          simp only
          constructor
          · rintro ⟨a, b⟩
            by_cases hi : i = (s.worker j).r * dim + (s.worker j).c
            · exact Or.inr hi
            · exact Or.inl ⟨a, by omega⟩
          · rintro (⟨a, b⟩ | hi)
            · exact ⟨a, by omega⟩
            · exact ⟨by omega, by omega⟩
        · intro i
          rw [hce]
          simp only
          constructor
          · intro hi
            rw [hi, Function.update_same, iA, iB]
          · intro hi
            rw [Function.update_noteq hi]
      · have hst : (s.worker j).step s.mem =
            ({ (s.worker j) with r := (s.worker j).r + 1, c := 0 }, s.mem) := by
          unfold Worker.step
          rw [if_pos hr, if_neg hc]
        rw [hst]
        rw [cd] at hc
        have hceq : (s.worker j).c = dim := by omega
        have e : ((s.worker j).r + 1) * dim = (s.worker j).r * dim + dim := by ring
        refine Pool.inv_update h hj { (s.worker j) with r := (s.worker j).r + 1, c := 0 }
          s.mem (fun _ => False) rfl ?_ ?_ ?_ ?_ ?_
        · exact ⟨cd, c0, by simp only; omega, by simp only; omega, c3, le_refl 0,
            by simp only; omega, fun _ => rfl⟩
        · rfl
        · rfl
        · intro i
          simp only
          rw [e, hceq]
          constructor
          · rintro ⟨a, b⟩
            exact Or.inl ⟨a, by omega⟩
          · rintro (⟨a, b⟩ | hf)
            · exact ⟨a, by omega⟩
            · exact absurd hf not_false
        · intro i
          exact ⟨fun hf => absurd hf not_false, fun _ => rfl⟩
    · have hst : (s.worker j).step s.mem = (s.worker j, s.mem) := by
        unfold Worker.step
        rw [if_neg hr]
      rw [hst]
      refine Pool.inv_update h hj (s.worker j) s.mem (fun _ => False) rfl (h.2.1 j hj).2
        rfl rfl ?_ ?_
      · intro i
        simp
      · intro i
        exact ⟨fun hf => absurd hf not_false, fun _ => rfl⟩
  · rw [if_neg hj]
    exact h

/-- Every schedule keeps the invariant. -/
theorem Pool.inv_run {dim : Int} (hd : dim ≤ 46340) {as : List thread_args_t} {m0 : Memory}
    (sched : List Nat) {s : Pool} (h : Pool.Inv dim as m0 s) :
    Pool.Inv dim as m0 (run_schedule sched s) := by
  induction sched generalizing s with
  | nil => exact h
  | cons j l ih =>
    rw [run_schedule_cons]
    exact ih (Pool.inv_step hd h j)

/-- The invariant holds when the threads have just been created. -/
theorem Pool.inv_init {dim : Int} (as : List thread_args_t) (m0 : Memory)
    (hok : ∀ a ∈ as, a.dimension = dim ∧ 0 ≤ a.start_row ∧ a.start_row ≤ a.end_row ∧
      a.end_row ≤ dim) :
    Pool.Inv dim as m0 (Pool.init as m0) := by
  refine ⟨rfl, ?_, rfl, rfl, ?_⟩
  · intro j hj
    refine ⟨rfl, ?_⟩
    have hj' : j < as.length := hj
    have hmem : as.getD j { dimension := 0, start_row := 0, end_row := 0 } ∈ as := by
      rw [List.getD_eq_getElem as _ hj']
      exact List.getElem_mem hj'
    obtain ⟨a0, a1, a2, a3⟩ := hok _ hmem
    exact ⟨a0, a1, le_refl _, a2, a3, le_refl 0, by
      show (0 : Int) ≤ dim
      omega, fun _ => rfl⟩
  · intro i
    have hno : ¬ Pool.Written (Pool.init as m0) dim i := by
      rintro ⟨j, _, h1, h2⟩
      simp only [Pool.init, spawn] at h1 h2
      omega
    exact ⟨fun hw => absurd hw hno, fun _ => rfl⟩

/-- Once every thread has finished, the memory is the one that the workers run
one after the other leave. -/
theorem Pool.mem_of_finished {dim : Int} (hd : dim ≤ 46340) {as : List thread_args_t}
    {m0 : Memory} {s : Pool} (h : Pool.Inv dim as m0 s) (hf : s.finished)
    (hok : ∀ a ∈ as, a.dimension = dim ∧ 0 ≤ a.start_row ∧ a.start_row ≤ a.end_row ∧
      a.end_row ≤ dim) :
    s.mem = run_workers as m0 := by
  obtain ⟨hlen, hw, iA, iB, iC⟩ := h
  obtain ⟨eA, eB, eC⟩ := run_workers_spec hd as m0 hok
  have hwr : ∀ i, Pool.Written s dim i ↔
      ∃ a ∈ as, a.start_row * dim ≤ i ∧ i < a.end_row * dim := by
    intro i
    constructor
    · rintro ⟨j, hj, h1, h2⟩
      obtain ⟨ha, _, _, _, c2, _, _, _, c6⟩ := hw j hj
      have hfin := hf j hj
      unfold Worker.finished at hfin
      have hre : (s.worker j).r = (s.worker j).args.end_row := by omega
      have hc0 := c6 hre
      have hj' : j < as.length := by omega
      refine ⟨(s.worker j).args, ?_, h1, ?_⟩
      · rw [ha, List.getD_eq_getElem as _ hj']
        exact List.getElem_mem hj'
      · rw [← hre]
        omega
    · rintro ⟨a, ha, h1, h2⟩
      obtain ⟨j, hj, rfl⟩ := List.mem_iff_getElem.1 ha
      have hj' : j < s.threads := by omega
      obtain ⟨hargs, _, _, _, c2, _, _, _, c6⟩ := hw j hj'
      have hfin := hf j hj'
      unfold Worker.finished at hfin
      have hre : (s.worker j).r = (s.worker j).args.end_row := by omega
      have hc0 := c6 hre
      rw [List.getD_eq_getElem as _ hj] at hargs
      refine ⟨j, hj', ?_, ?_⟩
      · rw [hargs]
        exact h1
      · rw [hre, hc0, hargs]
        omega
  rcases hs : s.mem with ⟨A', B', C'⟩
  rcases hrun : run_workers as m0 with ⟨A2, B2, C2⟩
  rw [hs] at iA iB iC
  rw [hrun] at eA eB eC
  simp only at iA iB iC eA eB eC
  subst iA iB
  rw [eA, eB]
  simp only [Memory.mk.injEq, true_and]
  funext i
  by_cases hi : Pool.Written s dim i
  · rw [(iC i).1 hi, (eC i).1 ((hwr i).1 hi)]
  · rw [(iC i).2 hi, (eC i).2 (fun hh => hi ((hwr i).2 hh))]

/-- A turn of an unfinished thread lowers the number of turns still to take. -/
theorem Pool.remaining_step {dim : Int} {as : List thread_args_t} {m0 : Memory} {s : Pool}
    (h : Pool.Inv dim as m0 s) {j : Nat} (hj : j < s.threads)
    (hu : ¬ (s.worker j).finished) : (Pool.step j s).remaining < s.remaining := by
  obtain ⟨cd, c0, c1, c2, c3, c4, c5, c6⟩ := (h.2.1 j hj).2
  unfold Worker.finished at hu
  have hr : (s.worker j).r < (s.worker j).args.end_row := by omega
  have hpos : 1 * (dim + 1) ≤ ((s.worker j).args.end_row - (s.worker j).r) * (dim + 1) :=
    mul_le_mul_of_nonneg_right (by omega) (by omega)
  have hlt : ((s.worker j).step s.mem).1.remaining < (s.worker j).remaining := by
    unfold Worker.step
    rw [if_pos hr]
    by_cases hc : (s.worker j).c < (s.worker j).args.dimension
    · rw [if_pos hc]
      unfold Worker.remaining
      simp only
      rw [cd]
      omega
    · rw [if_neg hc]
      unfold Worker.remaining
      simp only
      rw [cd] at hc ⊢
      have e : ((s.worker j).args.end_row - ((s.worker j).r + 1)) * (dim + 1) =
          ((s.worker j).args.end_row - (s.worker j).r) * (dim + 1) - (dim + 1) := by ring
      rw [e]
      omega
  unfold Pool.step Pool.remaining
  rw [if_pos hj]
  simp only
  apply Finset.sum_lt_sum
  · intro k _
    by_cases hkj : k = j
    · subst hkj
      rw [Function.update_same]
      exact le_of_lt hlt
    · rw [Function.update_noteq hkj]
  · refine ⟨j, Finset.mem_range.2 hj, ?_⟩
    rw [Function.update_same]
    exact hlt

/-- From every moment of a run some schedule leads to the end of all threads. -/
theorem Pool.exists_finishing {dim : Int} (hd : dim ≤ 46340) {as : List thread_args_t}
    {m0 : Memory} (n : Nat) (s : Pool) (h : Pool.Inv dim as m0 s) (hn : s.remaining ≤ n) :
    ∃ sched, (run_schedule sched s).finished := by
  induction n generalizing s with
  | zero =>
    refine ⟨[], ?_⟩
    intro j hj
    by_contra hu
    have := Pool.remaining_step h hj hu
    omega
  | succ n ih =>
    by_cases hf : s.finished
    · exact ⟨[], hf⟩
    · unfold Pool.finished at hf
      push_neg at hf
      obtain ⟨j, hj, hu⟩ := hf
      have hlt := Pool.remaining_step h hj hu
      obtain ⟨sched, hs⟩ := ih (Pool.step j s) (Pool.inv_step hd h j) (by omega)
      exact ⟨j :: sched, hs⟩

/-- The threads of `targs`, under any schedule that lets them all finish, leave
the memory that the workers run one after the other leave; and such schedules
exist. -/
theorem threads_of_targs {N T : Int} (hN0 : 0 ≤ N) (hN : N ≤ 46340) (hT : 0 < T) (m : Memory) :
    (∀ sched : List Nat, (run_schedule sched (Pool.init (targs N T) m)).finished →
      (run_schedule sched (Pool.init (targs N T) m)).mem = run_workers (targs N T) m) ∧
    ∃ sched : List Nat, (run_schedule sched (Pool.init (targs N T) m)).finished := by
  have hok : ∀ a ∈ targs N T, a.dimension = N ∧ 0 ≤ a.start_row ∧ a.start_row ≤ a.end_row ∧
      a.end_row ≤ N := fun a ha => targs_range_ok hN0 hT ha
  have hinit := Pool.inv_init (targs N T) m hok
  constructor
  · intro sched hf
    exact Pool.mem_of_finished hN (Pool.inv_run hN sched hinit) hf hok
  · exact Pool.exists_finishing hN _ _ hinit (le_refl _)

end M6

namespace M6

/-- C3: for every dimension > 0 and thread count > 0 the ranges that the
partition loop of `main` stores in `targs` are as many as there are threads;
the first starts at row 0; each starts where the previous one ends; each has
`start_row ≤ end_row`; the last ends at `dimension`; every row of
`[0, dimension)` lies in exactly one range and the ranges hold no other row;
the lengths of two ranges differ by at most 1; and with more threads than rows
the ranges from number `dimension` on are empty. -/
theorem C3_partition_ranges (dimension threads : Int) (hd : 0 < dimension) (ht : 0 < threads) :
    (targs dimension threads).length = threads.toNat ∧
    (∃ a, (targs dimension threads).head? = some a ∧ a.start_row = 0) ∧
    (∀ (j : Nat) (a b : thread_args_t), (targs dimension threads)[j]? = some a →
      (targs dimension threads)[j + 1]? = some b → b.start_row = a.end_row) ∧
    (∀ a ∈ targs dimension threads, a.start_row ≤ a.end_row) ∧
    (∃ z, (targs dimension threads).getLast? = some z ∧ z.end_row = dimension) ∧
    (∀ r : Int, 0 ≤ r → r < dimension →
      ∃! j : Nat, ∃ a, (targs dimension threads)[j]? = some a ∧
        a.start_row ≤ r ∧ r < a.end_row) ∧
    (∀ a ∈ targs dimension threads, ∀ r : Int, a.start_row ≤ r → r < a.end_row →
      0 ≤ r ∧ r < dimension) ∧
    (∀ a ∈ targs dimension threads, ∀ b ∈ targs dimension threads,
      (a.end_row - a.start_row) - (b.end_row - b.start_row) ≤ 1) ∧
    (dimension < threads → ∀ (j : Nat) (a : thread_args_t), dimension ≤ j →
      (targs dimension threads)[j]? = some a → a.start_row = a.end_row) := by
  have hd0 : 0 ≤ dimension := by omega
  have hb : 0 ≤ dimension / threads := Int.ediv_nonneg hd0 (by omega)
  have hrem : 0 ≤ dimension % threads := Int.emod_nonneg _ (by omega)
  have hT : 0 < threads.toNat := by omega
  have hlen : (targs dimension threads).length = threads.toNat := by
    rw [targs_eq hd0 ht]
    simp
  refine ⟨hlen, ?_, ?_, ?_, ?_, ?_, ?_, ?_, ?_⟩
  · refine ⟨{ dimension := dimension,
              start_row := first_row (dimension / threads) (dimension % threads) 0,
              end_row := first_row (dimension / threads) (dimension % threads) (0 + 1) },
      ?_, first_row_zero _ _ hrem⟩
    rw [List.head?_eq_getElem?, targs_getElem? hd0 ht]
    exact ⟨hT, rfl⟩
  · intro j a b ha hb'
    obtain ⟨_, rfl⟩ := (targs_getElem? hd0 ht j a).1 ha
    obtain ⟨_, rfl⟩ := (targs_getElem? hd0 ht (j + 1) b).1 hb'
    rfl
  · intro a ha
    exact (targs_range_ok hd0 ht ha).2.2.1
  · refine ⟨{ dimension := dimension,
              start_row := first_row (dimension / threads) (dimension % threads)
                (threads.toNat - 1),
              end_row := first_row (dimension / threads) (dimension % threads)
                (threads.toNat - 1 + 1) }, ?_, ?_⟩
    · rw [List.getLast?_eq_getElem?, hlen, targs_getElem? hd0 ht]
      exact ⟨by omega, rfl⟩
    · show first_row _ _ (threads.toNat - 1 + 1) = dimension
      rw [Nat.sub_add_cancel hT]
      exact first_row_threads ht
  · intro r hr0 hrd
    have h0 : first_row (dimension / threads) (dimension % threads) 0 ≤ r := by
      rw [first_row_zero _ _ hrem]
      exact hr0
    have hn : r < first_row (dimension / threads) (dimension % threads) threads.toNat := by
      rw [first_row_threads ht]
      exact hrd
    obtain ⟨j, hj, h1, h2⟩ := first_row_cover _ _ r _ h0 hn
    refine ⟨j, ⟨_, (targs_getElem? hd0 ht j _).2 ⟨hj, rfl⟩, h1, h2⟩, ?_⟩
    rintro j' ⟨a, ha, h1', h2'⟩
    obtain ⟨_, rfl⟩ := (targs_getElem? hd0 ht j' a).1 ha
    simp only at h1' h2'
    by_contra hne
    rcases Nat.lt_or_gt_of_ne hne with hlt | hgt
    · have := first_row_mono (dimension % threads) hb (show j' + 1 ≤ j by omega)
      omega
    · have := first_row_mono (dimension % threads) hb (show j + 1 ≤ j' by omega)
      omega
  · intro a ha r h1 h2
    have := targs_range_ok hd0 ht ha
    omega
  · intro a ha b hb'
    obtain ⟨j, _, rfl⟩ := (mem_targs hd0 ht a).1 ha
    obtain ⟨k, _, rfl⟩ := (mem_targs hd0 ht b).1 hb'
    simp only
    rw [first_row_succ, first_row_succ]
    split_ifs <;> omega
  · intro hlt j a hj ha
    obtain ⟨_, rfl⟩ := (targs_getElem? hd0 ht j a).1 ha
    simp only
    rw [first_row_succ, Int.ediv_eq_zero_of_lt hd0 hlt, Int.emod_eq_of_lt hd0 hlt, if_neg (by omega)]
    omega

/-- The partition at dimension 3 with 5 threads: three ranges of one row and
two empty trailing ranges. -/
theorem C3_partition_ranges_witness :
    (0 : Int) < 3 ∧ (0 : Int) < 5 ∧ (targs 3 5).length = (5 : Int).toNat ∧
      ∀ a ∈ targs 3 5, a.start_row ≤ a.end_row :=
  ⟨by decide, by decide, (C3_partition_ranges 3 5 (by decide) (by decide)).1,
    (C3_partition_ranges 3 5 (by decide) (by decide)).2.2.2.1⟩

/-- C5: for every pair of file sizes the validation of `main` fails with
`MalformedSize` when one of the sizes is not a multiple of 4, and otherwise
with `NotSquare` when one of the element counts `size / 4` is not a perfect
square; a run that passes has two perfect-square element counts; the failure
of the validation is the failure of `main`.  A file of 5 bytes gives
`MalformedSize` and a file of 12 bytes gives `NotSquare`. -/
theorem C5_size_validation (size1 size2 : Nat) (h1 : size1 < 2 ^ 64) (h2 : size2 < 2 ^ 64) :
    ((size1 % 4 ≠ 0 ∨ size2 % 4 ≠ 0) → validate size1 size2 = .error .MalformedSize) ∧
    (size1 % 4 = 0 → size2 % 4 = 0 →
      ((¬ ∃ n : Nat, size1 / 4 = n * n) ∨ (¬ ∃ n : Nat, size2 / 4 = n * n)) →
      ∃ w, validate size1 size2 = .error (.NotSquare w)) ∧
    (∀ d, validate size1 size2 = .ok d →
      (∃ n : Nat, size1 / 4 = n * n) ∧ (∃ n : Nat, size2 / 4 = n * n)) ∧
    (∀ e, validate size1 size2 = .error e → ∀ (threads : Int) (m : Memory), 0 < threads →
      main size1 size2 threads m = .error e) ∧
    validate 5 size2 = .error .MalformedSize ∧
    validate size1 5 = .error .MalformedSize ∧
    (size2 % 4 = 0 → validate 12 size2 = .error (.NotSquare 1)) ∧
    (size1 % 4 = 0 → ∃ w, validate size1 12 = .error (.NotSquare w)) := by
  have three : ¬ ∃ n : Nat, 12 / 4 = n * n := by
    rintro ⟨n, hn⟩
    have hn3 : n * n = 3 := by omega
    have : n ≤ 3 := by nlinarith
    interval_cases n <;> omega
  have sq12 : square_dimension (12 / 4) = none :=
    square_dimension_none_of_not_square _ (by norm_num) three
  refine ⟨validate_error_of_malformed size1 size2, ?_, ?_, ?_,
    validate_error_of_malformed 5 size2 (Or.inl (by decide)),
    validate_error_of_malformed size1 5 (Or.inr (by decide)), ?_, ?_⟩
  · intro hm1 hm2 hns
    rcases hns with hn | hn
    · exact ⟨1, validate_error_of_first size1 size2 hm1 hm2
        (square_dimension_none_of_not_square _ (elements_lt h1) hn)⟩
    · exact validate_error_of_second size1 size2 hm1 hm2
        (square_dimension_none_of_not_square _ (elements_lt h2) hn)
  · intro d hv
    obtain ⟨d0, _, e1, e2⟩ := (validate_ok_iff size1 size2 h1 h2 d).1 hv
    have hdn : ((d.toNat : Nat) : Int) = d := Int.toNat_of_nonneg d0
    have c : ∀ s : Nat, (s : Int) = 4 * (d * d) → s / 4 = d.toNat * d.toNat := by
      intro s hs
      have : ((s / 4 : Nat) : Int) = ((d.toNat * d.toNat : Nat) : Int) := by
        push_cast
        rw [hdn]
        omega
      exact_mod_cast this
    exact ⟨⟨_, c size1 e1⟩, ⟨_, c size2 e2⟩⟩
  · intro e hv threads m ht
    exact main_of_validate_error threads m ht hv
  · intro hm2
    exact validate_error_of_first 12 size2 (by decide) hm2 sq12
  · intro hm1
    exact validate_error_of_second size1 12 hm1 (by decide) sq12

/-- A file of 6 bytes next to one of 16 bytes, and the 5- and 12-byte files. -/
theorem C5_size_validation_witness :
    (6 : Nat) < 2 ^ 64 ∧ (16 : Nat) < 2 ^ 64 ∧ validate 6 16 = .error .MalformedSize ∧
      validate 5 16 = .error .MalformedSize ∧ validate 12 16 = .error (.NotSquare 1) :=
  ⟨by norm_num, by norm_num,
    (C5_size_validation 6 16 (by norm_num) (by norm_num)).1 (Or.inl (by decide)),
    (C5_size_validation 6 16 (by norm_num) (by norm_num)).2.2.2.2.1,
    (C5_size_validation 6 16 (by norm_num) (by norm_num)).2.2.2.2.2.2.1 (by decide)⟩

/-- C6 (the code at the failing input): two files of 46341 * 46341 integers
each, 8589953124 bytes, hold a perfect-square element count, and
`(int)floor(sqrt(elements))` is 46341; but the `int` product 46341 * 46341
wraps to -2147479015, its conversion to `size_t` is 18446744071562072601, not
the element count, and the validation, and with it `main`, fails with
`NotSquare`. -/
theorem C6_rejects_perfect_square_46341 :
    floor_sqrt (46341 * 46341) = 46341 ∧
    wrapInt32 (46341 * 46341) = -2147479015 ∧
    toSizeT (wrapInt32 (46341 * 46341)) = 18446744071562072601 ∧
    square_dimension (46341 * 46341) = none ∧
    validate (4 * 46341 * 46341) (4 * 46341 * 46341) = .error (.NotSquare 1) ∧
    main (4 * 46341 * 46341) (4 * 46341 * 46341) 1 int_min_memory =
      .error (.NotSquare 1) := by
  have hnone : square_dimension (46341 * 46341) = none := by
    rcases hq : square_dimension (46341 * 46341) with _ | d
    · rfl
    · exfalso
      obtain ⟨d0, d1, de⟩ := (square_dimension_eq_some_iff _ (by norm_num) d).1 hq
      have : d * d ≤ 46340 * 46340 := mul_le_mul d1 d1 d0 (by norm_num)
      push_cast at de
      omega
  have hval : validate (4 * 46341 * 46341) (4 * 46341 * 46341) = .error (.NotSquare 1) := by
    apply validate_error_of_first _ _ (by norm_num) (by norm_num)
    have e : 4 * 46341 * 46341 / 4 = 46341 * 46341 := by norm_num
    rw [e]
    exact hnone
  refine ⟨?_, by decide, by decide, hnone, hval,
    main_of_validate_error 1 int_min_memory (by decide) hval⟩
  unfold floor_sqrt
  rw [Nat.sqrt_eq]
  decide

/-- C7: when both files pass the multiple-of-4 check and each passes its
perfect-square check, with different dimensions, the validation and with it
`main` fail with `DimensionMismatch`; a failed `main` has no partition, no
worker and no output.  A file of 16 bytes with a file of 36 bytes fails so. -/
theorem C7_dimension_mismatch (size1 size2 : Nat) (d1 d2 threads : Int) (m : Memory)
    (ht : 0 < threads) (hm1 : size1 % 4 = 0) (hm2 : size2 % 4 = 0)
    (hs1 : square_dimension (size1 / 4) = some d1)
    (hs2 : square_dimension (size2 / 4) = some d2) (hne : d1 ≠ d2) :
    validate size1 size2 = .error .DimensionMismatch ∧
    main size1 size2 threads m = .error .DimensionMismatch ∧
    (¬ ∃ res, main size1 size2 threads m = .ok res) ∧
    main 16 36 threads m = .error .DimensionMismatch := by
  have key : ∀ (s1 s2 : Nat) (e1 e2 : Int), s1 % 4 = 0 → s2 % 4 = 0 →
      square_dimension (s1 / 4) = some e1 → square_dimension (s2 / 4) = some e2 → e1 ≠ e2 →
      validate s1 s2 = .error .DimensionMismatch := by
    intro s1 s2 e1 e2 k1 k2 q1 q2 kne
    unfold validate
    rw [if_neg (by omega)]
    dsimp only
    rw [q1, q2]
    dsimp only
    rw [if_pos kne]
  have hv := key size1 size2 d1 d2 hm1 hm2 hs1 hs2 hne
  have hmain := main_of_validate_error threads m ht hv
  refine ⟨hv, hmain, ?_, ?_⟩
  · rintro ⟨res, hres⟩
    rw [hmain] at hres
    exact Except.noConfusion hres
  · apply main_of_validate_error threads m ht
    apply key 16 36 2 3 (by decide) (by decide) _ _ (by decide)
    · exact (square_dimension_eq_some_iff _ (by norm_num) 2).2 (by norm_num)
    · exact (square_dimension_eq_some_iff _ (by norm_num) 3).2 (by norm_num)

/-- A 2×2 file (16 bytes) with a 3×3 file (36 bytes), 2 threads. -/
theorem C7_dimension_mismatch_witness :
    main 16 36 2 ⟨buffer_of [1, 2, 3, 4], buffer_of [1, 2, 3, 4, 5, 6, 7, 8, 9], buffer_of []⟩ =
      .error .DimensionMismatch :=
  (C7_dimension_mismatch 16 36 2 3 2
    ⟨buffer_of [1, 2, 3, 4], buffer_of [1, 2, 3, 4, 5, 6, 7, 8, 9], buffer_of []⟩
    (by decide) (by decide) (by decide)
    ((square_dimension_eq_some_iff _ (by norm_num) 2).2 (by norm_num))
    ((square_dimension_eq_some_iff _ (by norm_num) 3).2 (by norm_num))
    (by decide)).2.1

/-- C8: for input files that pass the validation with dimension `d`, the `int`
product `dimension * dimension` does not wrap, `output_size` is exactly
`d * d * 4`, the byte size of each input file, and two files of that size pass
the validation with dimension `d`. -/
theorem C8_output_size (size1 size2 : Nat) (d : Int) (h1 : size1 < 2 ^ 64)
    (h2 : size2 < 2 ^ 64) (hv : validate size1 size2 = .ok d) :
    wrapInt32 (d * d) = d * d ∧
    (output_size d : Int) = d * d * 4 ∧
    output_size d = size1 ∧ output_size d = size2 ∧
    validate (output_size d) (output_size d) = .ok d := by
  obtain ⟨d0, d1, e1, e2⟩ := (validate_ok_iff size1 size2 h1 h2 d).1 hv
  have hdd : d * d ≤ 46340 * 46340 := mul_le_mul d1 d1 d0 (by norm_num)
  have hdd0 : 0 ≤ d * d := mul_nonneg d0 d0
  have hid : wrapInt32 (d * d) = d * d := by
    apply wrapInt32_of_inInt32
    unfold InInt32
    constructor <;> omega
  have hout : (output_size d : Int) = d * d * 4 := by
    unfold output_size toSizeT
    rw [hid]
    omega
  have o1 : output_size d = size1 := by
    have : (output_size d : Int) = (size1 : Int) := by omega
    exact_mod_cast this
  have o2 : output_size d = size2 := by
    have : (output_size d : Int) = (size2 : Int) := by omega
    exact_mod_cast this
  refine ⟨hid, hout, o1, o2, ?_⟩
  have hv2 := hv
  rw [← o2] at hv2
  nth_rewrite 1 [← o1] at hv2
  exact hv2

/-- Two files of 16 bytes: dimension 2 and an output of 16 bytes. -/
theorem C8_output_size_witness : output_size 2 = 16 ∧ validate (output_size 2) (output_size 2) = .ok 2 :=
  ⟨(C8_output_size 16 16 2 (by norm_num) (by norm_num) (validate_square 2 (by norm_num))).2.2.1,
    (C8_output_size 16 16 2 (by norm_num) (by norm_num) (validate_square 2 (by norm_num))).2.2.2.2⟩

/-- C4: for a dimension `dim` that the validation lets through to the worker,
a row range within `[0, dim)`, a row `r` of the range and a column `c`, the
value that `multiply_rows` stores in `C[r * dim + c]` is the one integer of
`[-2^31, 2^31)` congruent modulo `2^32` to the exact sum over `k` of
`A[r * dim + k] * B[k * dim + c]`: wraparound, no saturation, no error.  The
1×1 matrices `[2^16]` and `[2^16]` give the cell 0. -/
theorem C4_wraparound_narrowing (size1 size2 : Nat) (args : thread_args_t) (m : Memory)
    (r c : Int) (h1 : size1 < 2 ^ 64) (h2 : size2 < 2 ^ 64)
    (hv : validate size1 size2 = .ok args.dimension)
    (h0 : 0 ≤ args.start_row) (hend : args.end_row ≤ args.dimension)
    (hr : args.start_row ≤ r) (hr' : r < args.end_row)
    (hc : 0 ≤ c) (hc' : c < args.dimension) :
    (∀ w : Int,
      (InInt32 w ∧ w ≡ exact_sum m.A m.B args.dimension r c [ZMOD 2 ^ 32]) ↔
        w = (multiply_rows args m).C (r * args.dimension + c)) ∧
    (multiply_rows args m).C (r * args.dimension + c) =
      wrapInt32 (exact_sum m.A m.B args.dimension r c) ∧
    (∀ C0 : Buffer,
      (multiply_rows { dimension := 1, start_row := 0, end_row := 1 }
        { A := buffer_of [2 ^ 16], B := buffer_of [2 ^ 16], C := C0 }).C 0 = 0) := by
  have gen : ∀ (a : thread_args_t) (m' : Memory) (r' c' : Int), 0 ≤ a.start_row →
      a.end_row ≤ a.dimension → a.dimension ≤ 46340 → a.start_row ≤ r' → r' < a.end_row →
      0 ≤ c' → c' < a.dimension →
      (multiply_rows a m').C (r' * a.dimension + c') =
        wrapInt32 (exact_sum m'.A m'.B a.dimension r' c') := by
    intro a m' r' c' k0 k2 kd kr kr' kc kc'
    have hpos : 0 < a.dimension := by omega
    rw [multiply_rows_eq a m' k0 (by omega) k2 kd]
    simp only
    have hin : a.start_row * a.dimension ≤ r' * a.dimension + c' ∧
        r' * a.dimension + c' < a.end_row * a.dimension := by
      rw [offset_row_iff hpos, (row_col_of_offset kc kc').1]
      exact ⟨kr, kr'⟩
    rw [if_pos hin, product_cell_at _ _ kc kc']
  have hd : args.dimension ≤ 46340 := ((validate_ok_iff size1 size2 h1 h2 _).1 hv).2.1
  have hval := gen args m r c h0 hend hd hr hr' hc hc'
  refine ⟨?_, hval, ?_⟩
  · intro w
    rw [hval]
    constructor
    · rintro ⟨hw, hcong⟩
      rw [← wrapInt32_congr hcong, wrapInt32_of_inInt32 hw]
    · rintro rfl
      exact ⟨wrapInt32_inInt32 _, wrapInt32_modEq _⟩
  · intro C0
    have h := gen { dimension := 1, start_row := 0, end_row := 1 }
      { A := buffer_of [2 ^ 16], B := buffer_of [2 ^ 16], C := C0 } 0 0
      (by decide) (by decide) (by decide) (by decide) (by decide) (by decide) (by decide)
    simp only [zero_mul, add_zero] at h
    rw [h]
    decide

/-- The 1×1 matrices `[2^16]` and `[2^16]`. -/
theorem C4_wraparound_narrowing_witness :
    (multiply_rows { dimension := 1, start_row := 0, end_row := 1 }
        { A := buffer_of [2 ^ 16], B := buffer_of [2 ^ 16], C := buffer_of [7] }).C (0 * 1 + 0) =
      wrapInt32 (exact_sum (buffer_of [2 ^ 16]) (buffer_of [2 ^ 16]) 1 0 0) :=
  (C4_wraparound_narrowing 4 4 { dimension := 1, start_row := 0, end_row := 1 }
    { A := buffer_of [2 ^ 16], B := buffer_of [2 ^ 16], C := buffer_of [7] } 0 0
    (by norm_num) (by norm_num) (validate_square 1 (by norm_num))
    (by decide) (by decide) (by decide) (by decide) (by decide) (by decide)).2.1

/-- C9: for a dimension `dim` that the validation lets through to the worker
and a row range within `[0, dim]`, `multiply_rows` leaves `A` and `B` as they
were and leaves every cell `C[i]` whose row `i / dim` is outside
`[start, end)` as it was; with `start == end` nothing changes at all. -/
theorem C9_frame (size1 size2 : Nat) (args : thread_args_t) (m : Memory)
    (h1 : size1 < 2 ^ 64) (h2 : size2 < 2 ^ 64)
    (hv : validate size1 size2 = .ok args.dimension) (h0 : 0 ≤ args.start_row)
    (hle : args.start_row ≤ args.end_row) (hend : args.end_row ≤ args.dimension) :
    (multiply_rows args m).A = m.A ∧ (multiply_rows args m).B = m.B ∧
    (∀ i : Int, ¬ (args.start_row ≤ i / args.dimension ∧ i / args.dimension < args.end_row) →
      (multiply_rows args m).C i = m.C i) ∧
    (args.start_row = args.end_row → multiply_rows args m = m) := by
  have hd : args.dimension ≤ 46340 := ((validate_ok_iff size1 size2 h1 h2 _).1 hv).2.1
  have hm := multiply_rows_eq args m h0 hle hend hd
  refine ⟨by rw [hm], by rw [hm], ?_, ?_⟩
  · intro i hi
    rw [hm]
    simp only
    rw [if_neg]
    intro hin
    have hpos : 0 < args.dimension := by
      by_contra hle
      have hz : args.dimension = 0 := by omega
      rw [hz] at hin
      omega
    exact hi ((offset_row_iff hpos _ _ i).1 hin)
  · intro he
    unfold multiply_rows forLoop
    rw [he]
    simp [loopFrom]

/-- The worker of row 1 of a 2×2 matrix leaves row 0 of `C` as it was. -/
theorem C9_frame_witness :
    (multiply_rows { dimension := 2, start_row := 1, end_row := 2 }
      { A := buffer_of [1, 2, 3, 4], B := buffer_of [5, 6, 7, 8], C := buffer_of [9, 9, 9, 9] }).C 1 = 9 :=
  (C9_frame 16 16 { dimension := 2, start_row := 1, end_row := 2 }
    { A := buffer_of [1, 2, 3, 4], B := buffer_of [5, 6, 7, 8], C := buffer_of [9, 9, 9, 9] }
    (by norm_num) (by norm_num) (validate_square 2 (by norm_num))
    (by decide) (by decide) (by decide)).2.2.1 1 (by decide)

/-- C1: for a dimension `N` that the validation accepts, any contents of `A`
and `B`, any thread count `T ≥ 1` and any initial content of `C`, `main`
succeeds with the workers of `targs N T`, and once these workers have
completed, whether run one after the other in any order or as threads whose
turns interleave in any way, every cell `C[r * N + c]` with `0 ≤ r, c < N`
holds the sum over `k` of `A[r * N + k] * B[k * N + c]` narrowed to 32 bits,
whatever it held before, while `A` and `B` are as they were; and the threads can
always all complete.  For `A = [[1,2],[3,4]]`, `B = [[5,6],[7,8]]` and `T = 2`
the result is `[[19,22],[43,50]]`. -/
theorem C1_all_cells_computed (size1 size2 : Nat) (N T : Int) (m : Memory)
    (h1 : size1 < 2 ^ 64) (h2 : size2 < 2 ^ 64) (hv : validate size1 size2 = .ok N)
    (hT : 1 ≤ T) :
    (∃ res, main size1 size2 T m = .ok res ∧ res.dimension = N ∧ res.workers = targs N T ∧
      res.mem = run_workers (targs N T) m) ∧
    (∀ sched : List thread_args_t, sched.Perm (targs N T) →
      (run_workers sched m).A = m.A ∧ (run_workers sched m).B = m.B ∧
      ∀ r c : Int, 0 ≤ r → r < N → 0 ≤ c → c < N →
        (run_workers sched m).C (r * N + c) = wrapInt32 (exact_sum m.A m.B N r c)) ∧
    (∀ turns : List Nat, (run_schedule turns (Pool.init (targs N T) m)).finished →
      (run_schedule turns (Pool.init (targs N T) m)).mem.A = m.A ∧
      (run_schedule turns (Pool.init (targs N T) m)).mem.B = m.B ∧
      ∀ r c : Int, 0 ≤ r → r < N → 0 ≤ c → c < N →
        (run_schedule turns (Pool.init (targs N T) m)).mem.C (r * N + c) =
          wrapInt32 (exact_sum m.A m.B N r c)) ∧
    (∃ turns : List Nat, (run_schedule turns (Pool.init (targs N T) m)).finished) ∧
    (∀ C0 : Buffer, ∃ res,
      main 16 16 2 { A := buffer_of [1, 2, 3, 4], B := buffer_of [5, 6, 7, 8], C := C0 } =
        .ok res ∧
      res.mem.C 0 = 19 ∧ res.mem.C 1 = 22 ∧ res.mem.C 2 = 43 ∧ res.mem.C 3 = 50) := by
  have gen : ∀ (s1 s2 : Nat) (N' T' : Int) (m' : Memory), s1 < 2 ^ 64 → s2 < 2 ^ 64 →
      validate s1 s2 = .ok N' → 1 ≤ T' →
      ∀ sched : List thread_args_t, sched.Perm (targs N' T') →
        (run_workers sched m').A = m'.A ∧ (run_workers sched m').B = m'.B ∧
        ∀ r c : Int, 0 ≤ r → r < N' → 0 ≤ c → c < N' →
          (run_workers sched m').C (r * N' + c) = wrapInt32 (exact_sum m'.A m'.B N' r c) := by
    intro s1 s2 N' T' m' k1 k2 kv kT sched hp
    obtain ⟨n0, n1, _, _⟩ := (validate_ok_iff s1 s2 k1 k2 N').1 kv
    have hrun := run_targs_eq n0 n1 (show 0 < T' by omega) m' sched hp
    refine ⟨by rw [hrun], by rw [hrun], ?_⟩
    intro r c hr hrN hc hcN
    rw [hrun]
    simp only
    rw [if_pos (offset_in_matrix hr hrN hc hcN), product_cell_at _ _ hc hcN]
  obtain ⟨n0, n1, _, _⟩ := (validate_ok_iff size1 size2 h1 h2 N).1 hv
  obtain ⟨hthr, hex⟩ := threads_of_targs n0 n1 (show 0 < T by omega) m
  refine ⟨⟨_, main_of_validate_ok T m (by omega) hv, rfl, rfl, rfl⟩,
    gen size1 size2 N T m h1 h2 hv hT, ?_, hex, ?_⟩
  · intro turns hf
    rw [hthr turns hf]
    exact gen size1 size2 N T m h1 h2 hv hT (targs N T) (List.Perm.refl _)
  intro C0
  have hv2 : validate 16 16 = .ok 2 := validate_square 2 (by norm_num)
  refine ⟨_, main_of_validate_ok 2 _ (by decide) hv2, ?_⟩
  obtain ⟨_, _, hC⟩ := gen 16 16 2 2
    { A := buffer_of [1, 2, 3, 4], B := buffer_of [5, 6, 7, 8], C := C0 }
    (by norm_num) (by norm_num) hv2 (by decide) (targs 2 2) (List.Perm.refl _)
  have c00 := hC 0 0 (by decide) (by decide) (by decide) (by decide)
  have c01 := hC 0 1 (by decide) (by decide) (by decide) (by decide)
  have c10 := hC 1 0 (by decide) (by decide) (by decide) (by decide)
  have c11 := hC 1 1 (by decide) (by decide) (by decide) (by decide)
  norm_num at c00 c01 c10 c11
  simp only
  rw [c00, c01, c10, c11]
  refine ⟨by decide, by decide, by decide, by decide⟩

/-- The 2×2 example with the two workers run in the reverse order. -/
theorem C1_all_cells_computed_witness :
    (run_workers [{ dimension := 2, start_row := 1, end_row := 2 },
        { dimension := 2, start_row := 0, end_row := 1 }]
      { A := buffer_of [1, 2, 3, 4], B := buffer_of [5, 6, 7, 8], C := buffer_of [] }).C
        (1 * 2 + 1) =
      wrapInt32 (exact_sum (buffer_of [1, 2, 3, 4]) (buffer_of [5, 6, 7, 8]) 2 1 1) :=
  ((C1_all_cells_computed 16 16 2 2
      { A := buffer_of [1, 2, 3, 4], B := buffer_of [5, 6, 7, 8], C := buffer_of [] }
      (by norm_num) (by norm_num) (validate_square 2 (by norm_num)) (by decide)).2.1
    [{ dimension := 2, start_row := 1, end_row := 2 },
      { dimension := 2, start_row := 0, end_row := 1 }]
    (List.Perm.swap _ _ [])).2.2 1 1 (by decide) (by decide) (by decide) (by decide)

/-- C2: for a dimension `N` that the validation accepts and every thread count
`T ≥ 1` (so for every `T` in `[1, N + 5]`), the run of `main` with `T` workers
and the run with one worker both succeed and end with the same memory: the
output `C` is the same cell for cell, and so are the dimension and the size of
the output; the same holds of the `T` threads and the single thread under any
interleaving of their turns that lets them complete. -/
theorem C2_thread_count_irrelevant (size1 size2 : Nat) (N T : Int) (m : Memory)
    (h1 : size1 < 2 ^ 64) (h2 : size2 < 2 ^ 64) (hv : validate size1 size2 = .ok N)
    (hT : 1 ≤ T) :
    ∃ resT res1, main size1 size2 T m = .ok resT ∧ main size1 size2 1 m = .ok res1 ∧
      resT.mem.C = res1.mem.C ∧ resT.mem = res1.mem ∧
      resT.dimension = res1.dimension ∧ resT.output_size = res1.output_size ∧
      ∀ turnsT turns1 : List Nat,
        (run_schedule turnsT (Pool.init (targs N T) m)).finished →
        (run_schedule turns1 (Pool.init (targs N 1) m)).finished →
        (run_schedule turnsT (Pool.init (targs N T) m)).mem =
          (run_schedule turns1 (Pool.init (targs N 1) m)).mem := by
  obtain ⟨n0, n1, _, _⟩ := (validate_ok_iff size1 size2 h1 h2 N).1 hv
  have eT := run_targs_eq n0 n1 (show 0 < T by omega) m _ (List.Perm.refl _)
  have e1 := run_targs_eq n0 n1 (show (0 : Int) < 1 by decide) m _ (List.Perm.refl _)
  refine ⟨_, _, main_of_validate_ok T m (by omega) hv,
    main_of_validate_ok 1 m (by decide) hv, ?_, ?_, rfl, rfl, ?_⟩
  · simp only
    rw [eT, e1]
  · simp only
    rw [eT, e1]
  · intro turnsT turns1 hfT hf1
    rw [(threads_of_targs n0 n1 (show 0 < T by omega) m).1 turnsT hfT,
      (threads_of_targs n0 n1 (show (0 : Int) < 1 by decide) m).1 turns1 hf1, eT, e1]

/-- Two 3×3 files with 8 = 3 + 5 workers and with one worker. -/
theorem C2_thread_count_irrelevant_witness :
    ∃ resT res1,
      main 36 36 8 { A := buffer_of [1, 2, 3, 4, 5, 6, 7, 8, 9],
                     B := buffer_of [9, 8, 7, 6, 5, 4, 3, 2, 1], C := buffer_of [] } = .ok resT ∧
      main 36 36 1 { A := buffer_of [1, 2, 3, 4, 5, 6, 7, 8, 9],
                     B := buffer_of [9, 8, 7, 6, 5, 4, 3, 2, 1], C := buffer_of [] } = .ok res1 ∧
      resT.mem.C = res1.mem.C ∧ resT.mem = res1.mem ∧
      resT.dimension = res1.dimension ∧ resT.output_size = res1.output_size :=
  have h := C2_thread_count_irrelevant 36 36 3 8
    { A := buffer_of [1, 2, 3, 4, 5, 6, 7, 8, 9],
      B := buffer_of [9, 8, 7, 6, 5, 4, 3, 2, 1], C := buffer_of [] }
    (by norm_num) (by norm_num) (validate_square 3 (by norm_num)) (by decide)
  Exists.elim h fun resT hT => Exists.elim hT fun res1 h1 =>
    ⟨resT, res1, h1.1, h1.2.1, h1.2.2.1, h1.2.2.2.1, h1.2.2.2.2.1, h1.2.2.2.2.2.1⟩

/-! ## The accumulator -/

theorem running_sum_abs_le (m : Memory) (N r c M : Int) (hM : 0 ≤ M) (hA : ∀ i, |m.A i| ≤ M)
    (hB : ∀ i, |m.B i| ≤ M) (hb : N * (M * M) < 2 ^ 63) (n : Nat) (hn : (n : Int) ≤ N) :
    |running_sum m N r c n| ≤ n * (M * M) ∧
    ((n : Int) < N →
      InInt64 (acc_exact m N r c n (running_sum m N r c n)) ∧
      |acc_exact m N r c n (running_sum m N r c n)| ≤ (n + 1) * (M * M)) := by
  have hMM : 0 ≤ M * M := mul_nonneg hM hM
  have step : ∀ (k : Nat) (s : Int), (k : Int) < N → |s| ≤ k * (M * M) →
      InInt64 (acc_exact m N r c k s) ∧ |acc_exact m N r c k s| ≤ (k + 1) * (M * M) := by
    intro k s hk hs
    have hp : |m.A (index r N k) * m.B (index k N c)| ≤ M * M := by
      rw [abs_mul]
      exact mul_le_mul (hA _) (hB _) (abs_nonneg _) hM
    have hk1 : ((k : Int) + 1) * (M * M) ≤ N * (M * M) :=
      mul_le_mul_of_nonneg_right (by omega) hMM
    have hk0 : 0 ≤ (k : Int) * (M * M) := mul_nonneg (by omega) hMM
    have e : ((k : Int) + 1) * (M * M) = k * (M * M) + M * M := by ring
    have hw : wrapInt64 (m.A (index r N k) * m.B (index k N c)) =
        m.A (index r N k) * m.B (index k N c) := by
      apply wrapInt64_of_inInt64
      have := abs_le.1 hp
      unfold InInt64
      constructor <;> omega
    unfold acc_exact
    rw [hw]
    have hsum : |s + m.A (index r N k) * m.B (index k N c)| ≤ (k + 1) * (M * M) := by
      have := abs_add s (m.A (index r N k) * m.B (index k N c))
      omega
    refine ⟨?_, hsum⟩
    have := abs_le.1 hsum
    unfold InInt64
    constructor <;> omega
  induction n with
  | zero =>
    have h0 : running_sum m N r c 0 = 0 := rfl
    refine ⟨by simp [h0], fun hlt => ?_⟩
    have := step 0 (running_sum m N r c 0) hlt (by simp [h0])
    simpa using this
  | succ n ih =>
    have hn' : (n : Int) < N := by push_cast at hn; omega
    obtain ⟨ih1, ih2⟩ := ih (by omega)
    obtain ⟨hin, hle⟩ := ih2 hn'
    have hrs : running_sum m N r c (n + 1) = acc_exact m N r c n (running_sum m N r c n) := by
      rw [running_sum_succ]
      exact wrapInt64_of_inInt64 hin
    have hb1 : |running_sum m N r c (n + 1)| ≤ ((n + 1 : Nat) : Int) * (M * M) := by
      rw [hrs]
      push_cast
      exact hle
    refine ⟨hb1, fun hlt => ?_⟩
    have := step (n + 1) _ hlt hb1
    push_cast at this ⊢
    exact this

/-- C10 (as amended): for every dimension `N` (so for those the validation
accepts) and matrices whose entries are at most `M` in magnitude, where
`N * M * M < 2^63`, the `long` accumulator does not overflow: at each of the
`N` additions of a product the exact value of `sum + A[r,k] * B[k,c]` lies in
`[-2^63, 2^63)`, and it is the value that `sum` holds afterwards. -/
theorem C10_accumulator_in_range_when_bounded (m : Memory) (N r c M : Int) (hM : 0 ≤ M)
    (hA : ∀ i, |m.A i| ≤ M) (hB : ∀ i, |m.B i| ≤ M) (hb : N * (M * M) < 2 ^ 63)
    (k : Nat) (hk : (k : Int) < N) :
    InInt64 (acc_exact m N r c k (running_sum m N r c k)) ∧
    running_sum m N r c (k + 1) = acc_exact m N r c k (running_sum m N r c k) := by
  have h := ((running_sum_abs_le m N r c M hM hA hB hb k (by omega)).2 hk).1
  refine ⟨h, ?_⟩
  rw [running_sum_succ]
  exact wrapInt64_of_inInt64 h

/-- The second addition for cell (1, 1) of the 2×2 example, entries at most 8. -/
theorem C10_accumulator_in_range_when_bounded_witness :
    InInt64 (acc_exact
      { A := buffer_of [1, 2, 3, 4], B := buffer_of [5, 6, 7, 8], C := buffer_of [] } 2 1 1
      (1 : Nat) (running_sum
        { A := buffer_of [1, 2, 3, 4], B := buffer_of [5, 6, 7, 8], C := buffer_of [] } 2 1 1 1)) :=
  (C10_accumulator_in_range_when_bounded
    { A := buffer_of [1, 2, 3, 4], B := buffer_of [5, 6, 7, 8], C := buffer_of [] } 2 1 1 8
    (by decide)
    (by
      intro i
      simp only [buffer_of]
      split_ifs with h
      · rcases hi : i.toNat with _ | _ | _ | _ | n <;> simp [List.getD]
      · norm_num)
    (by
      intro i
      simp only [buffer_of]
      split_ifs with h
      · rcases hi : i.toNat with _ | _ | _ | _ | n <;> simp [List.getD]
      · norm_num)
    (by norm_num) 1 (by decide)).1

/-- C10 (the claim as stated fails): dimension 2 is accepted by the validation;
with every entry of `A` and `B` equal to `INT_MIN`, a 32-bit value, the sum for
cell (0, 0) is `2^62` after the first addition and the second addition yields
`2^63`, outside the signed 64-bit range. -/
theorem C10_accumulator_overflows :
    validate 16 16 = .ok 2 ∧
    (∀ i, InInt32 (int_min_memory.A i) ∧ InInt32 (int_min_memory.B i)) ∧
    running_sum int_min_memory 2 0 0 1 = 2 ^ 62 ∧
    acc_exact int_min_memory 2 0 0 1 (running_sum int_min_memory 2 0 0 1) = 2 ^ 63 ∧
    ¬ InInt64 (acc_exact int_min_memory 2 0 0 1 (running_sum int_min_memory 2 0 0 1)) := by
  refine ⟨validate_square 2 (by norm_num), ?_, by decide, by decide, by decide⟩
  intro i
  exact ⟨show InInt32 (-2 ^ 31) by decide, show InInt32 (-2 ^ 31) by decide⟩

/-- The 2×2 example at work: the two threads take turns alternately, thread 1
first, and have both finished after six turns, with the product in `C`. -/
theorem interleaved_example :
    (run_schedule [1, 0, 1, 0, 1, 0]
      (Pool.init (targs 2 2)
        { A := buffer_of [1, 2, 3, 4], B := buffer_of [5, 6, 7, 8], C := buffer_of [] })).finished ∧
    (run_schedule [1, 0, 1, 0, 1, 0]
      (Pool.init (targs 2 2)
        { A := buffer_of [1, 2, 3, 4], B := buffer_of [5, 6, 7, 8], C := buffer_of [] })).mem.C 3 = 50 ∧
    ¬ (run_schedule [1, 0, 1, 0, 1]
      (Pool.init (targs 2 2)
        { A := buffer_of [1, 2, 3, 4], B := buffer_of [5, 6, 7, 8], C := buffer_of [] })).finished := by
  refine ⟨by decide, by decide, by decide⟩

end M6
